import Mathlib

/-!
Verification of `tensorflow/python/training/tracking/graph_view.py`.

Shallow embedding conventions:
* Python strings are modelled as `List Char`.
* Trackable objects are identified by a `Nat` handle; object-identity keyed
  dictionaries (`object_identity.ObjectIdentityDictionary`) become
  insertion-ordered association lists over that handle.
* Exceptions become `Except PyErr`.
-/

namespace GraphView

/-- `base.TrackableReference`: a named reference from one trackable to another. -/
structure TrackableReference where
  name : List Char
  ref : Nat
deriving DecidableEq, Repr

/-- `_ESCAPE_CHAR = "."` (single character). -/
def ESCAPE_CHAR : Char := '.'

/-- `_OPTIMIZER_SLOTS_NAME = _ESCAPE_CHAR + "OPTIMIZER_SLOT"`. -/
def OPTIMIZER_SLOTS_NAME : List Char := ESCAPE_CHAR :: "OPTIMIZER_SLOT".toList

/-- `_OBJECT_ATTRIBUTES_NAME = _ESCAPE_CHAR + "ATTRIBUTES"`. -/
def OBJECT_ATTRIBUTES_NAME : List Char := ESCAPE_CHAR :: "ATTRIBUTES".toList

/-- Python `s.replace(old, new)` for a single-character pattern `old`. -/
def replaceChar (old : Char) (new : List Char) (s : List Char) : List Char :=
  s.flatMap fun c => if c = old then new else [c]

/-- `_escape_local_name`: first every escape character is doubled, then every
`/` is replaced by escape-character + `S`. -/
def escape_local_name (name : List Char) : List Char :=
  replaceChar '/' (ESCAPE_CHAR :: ['S'])
    (replaceChar ESCAPE_CHAR (ESCAPE_CHAR :: [ESCAPE_CHAR]) name)

/-- Python `"/".join(xs)`. -/
def joinSlash : List (List Char) → List Char
  | [] => []
  | [x] => x
  | x :: y :: xs => x ++ '/' :: joinSlash (y :: xs)

/-- `_object_prefix_from_path`: join the escaped local names along the path. -/
def object_prefix_from_path (path_to_root : List TrackableReference) : List Char :=
  joinSlash (path_to_root.map fun trackable => escape_local_name trackable.name)

/-- `_slot_variable_naming_for_optimizer`: the `optimizer_identifier` string
`"/%s/%s/" % (_OPTIMIZER_SLOTS_NAME, optimizer_path)`. -/
def optimizer_identifier (optimizer_path : List Char) : List Char :=
  '/' :: (OPTIMIZER_SLOTS_NAME ++ '/' :: (optimizer_path ++ ['/']))

/-- The `_name_slot_variable` closure returned by
`_slot_variable_naming_for_optimizer`. -/
def name_slot_variable (optimizer_path variable_path slot_name : List Char) : List Char :=
  variable_path ++ optimizer_identifier optimizer_path ++ escape_local_name slot_name

/-- The checkpoint key `"%s/%s/%s" % (object_name, _OBJECT_ATTRIBUTES_NAME,
_escape_local_name(name))` built for each attribute in
`get_checkpoint_factories_and_keys`. -/
def checkpoint_key_of (object_name attr_name : List Char) : List Char :=
  object_name ++ '/' :: (OBJECT_ATTRIBUTES_NAME ++ '/' :: escape_local_name attr_name)

/-! ### Character-level view of `_escape_local_name` -/

/-- Per-character view of the two sequential `replace` calls. -/
def escapeChar (c : Char) : List Char :=
  if c = '.' then ['.', '.'] else if c = '/' then ['.', 'S'] else [c]
/-! ### Insertion-ordered association lists

`object_identity.ObjectIdentityDictionary` (and plain Python dicts) are
modelled as insertion-ordered association lists; `alookup` is dict lookup,
`aset` is item assignment, `adel` is `del`. -/

def alookup {α : Type} [DecidableEq α] {β : Type} (k : α) : List (α × β) → Option β
  | [] => none
  | (a, b) :: l => if a = k then some b else alookup k l

def aset {α : Type} [DecidableEq α] {β : Type} (k : α) (v : β) : List (α × β) → List (α × β)
  | [] => [(k, v)]
  | (a, b) :: l => if a = k then (k, v) :: l else (a, b) :: aset k v l

def adel {α : Type} [DecidableEq α] {β : Type} (k : α) : List (α × β) → List (α × β)
  | [] => []
  | (a, b) :: l => if a = k then l else (a, b) :: adel k l


/-! ### Breadth-first traversal (`ObjectGraphView._breadth_first_traversal`) -/

/-- The dependency-graph configuration: a bound on node handles, the root, and
the `list_dependencies` capability. -/
structure GraphCfg where
  numNodes : Nat
  root : Nat
  deps : Nat → List TrackableReference

/-- Well-formedness of a configuration: the root and every listed dependency
stay below the handle bound. -/
def WellFormedGraph (g : GraphCfg) : Prop :=
  g.root < g.numNodes ∧ ∀ u, u < g.numNodes → ∀ r ∈ g.deps u, r.ref < g.numNodes

instance (g : GraphCfg) : Decidable (WellFormedGraph g) := by
  unfold WellFormedGraph; infer_instance

/-- One step of the inner `for name, dependency in self.list_dependencies(...)`
loop: skip already-discovered dependencies, otherwise record the extended path
and append the dependency to the queue. -/
def discover (cp : List TrackableReference)
    (st : List Nat × List (Nat × List TrackableReference)) (r : TrackableReference) :
    List Nat × List (Nat × List TrackableReference) :=
  if (alookup r.ref st.2).isSome then st
  else (st.1 ++ [r.ref], st.2 ++ [(r.ref, cp ++ [r])])

/-- The `while to_visit:` loop, with fuel (the loop runs at most once per
discovered node, so `numNodes` fuel always suffices; leftover queue is
returned so fuel exhaustion is observable). -/
def bfsAux (g : GraphCfg) :
    Nat → List Nat → List Nat → List (Nat × List TrackableReference) →
    List Nat × List (Nat × List TrackableReference) × List Nat
  | 0, queue, bfs_sorted, path_to_root => (bfs_sorted, path_to_root, queue)
  | _ + 1, [], bfs_sorted, path_to_root => (bfs_sorted, path_to_root, [])
  | fuel + 1, current :: rest, bfs_sorted, path_to_root =>
    let cp := (alookup current path_to_root).getD []
    let st := (g.deps current).foldl (discover cp) (rest, path_to_root)
    bfsAux g fuel st.1 (bfs_sorted ++ [current]) st.2

/-- `_breadth_first_traversal`: returns `(bfs_sorted, path_to_root)`. -/
def breadth_first_traversal (g : GraphCfg) :
    List Nat × List (Nat × List TrackableReference) :=
  let r := bfsAux g g.numNodes [g.root] [] [(g.root, [])]
  (r.1, r.2.1)

/-- `isPathFrom g u p v`: the edge list `p` is a valid dependency path from
`u` to `v` in `g`. -/
def isPathFrom (g : GraphCfg) (u : Nat) : List TrackableReference → Nat → Prop
  | [], v => u = v
  | r :: rs, v => r ∈ g.deps u ∧ isPathFrom g r.ref rs v

instance (g : GraphCfg) (u : Nat) (p : List TrackableReference) (v : Nat) :
    Decidable (isPathFrom g u p v) := by
  induction p generalizing u with
  | nil => unfold isPathFrom; infer_instance
  | cons r rs ih => unfold isPathFrom; exact @instDecidableAnd _ _ inferInstance (ih r.ref)

/-- Loop invariant for `_breadth_first_traversal`. -/
structure BfsInv (g : GraphCfg) (queue bfs_sorted : List Nat)
    (paths : List (Nat × List TrackableReference)) : Prop where
  keys_eq : paths.map Prod.fst = bfs_sorted ++ queue
  nodup : (paths.map Prod.fst).Nodup
  keys_lt : ∀ e ∈ paths, e.1 < g.numNodes
  valid : ∀ e ∈ paths, isPathFrom g g.root e.2 e.1
  hd : paths.head? = some (g.root, [])
  levels : ∃ d qA qB, queue = qA ++ qB
    ∧ (∀ q ∈ qA, ∀ pq, alookup q paths = some pq → pq.length = d)
    ∧ (∀ q ∈ qB, ∀ pq, alookup q paths = some pq → pq.length = d + 1)
    ∧ (∀ e ∈ paths, e.2.length ≤ d + 1)
  closed : ∀ u ∈ bfs_sorted, ∀ pu, alookup u paths = some pu →
    ∀ r ∈ g.deps u, ∃ pv, alookup r.ref paths = some pv ∧ pv.length ≤ pu.length + 1
  parentEdge : ∀ e ∈ paths, e.2 = [] ∨ ∃ u pu r l1 l2 s1 s2,
    alookup u paths = some pu
    ∧ g.deps u = l1 ++ r :: l2 ∧ (∀ r2 ∈ l1, r2.ref ≠ e.1)
    ∧ r.ref = e.1 ∧ e.2 = pu ++ [r]
    ∧ bfs_sorted = s1 ++ u :: s2
    ∧ ∀ w ∈ s1, ∀ r2 ∈ g.deps w, r2.ref ≠ e.1

/-! ### Slot variables (`_serialize_slot_variables`) -/

/-- Python exceptions distinguished by the embedding. `unsupportedSlotDependency`
and `illegalSlotAliasing` are the two `NotImplementedError`s of
`_serialize_slot_variables`; `adapterKeyMismatch` and `feedKeyCollision` are the
two `AssertionError`s of `_add_attributes_to_object_graph`; `nodeIdMismatch` is
the `assert node_ids[trackable] == checkpoint_id` statements. -/
inductive PyErr where
  | unsupportedSlotDependency
  | illegalSlotAliasing
  | adapterKeyMismatch
  | feedKeyCollision
  | nodeIdMismatch
  | attributeError
  | keyError
  | otherError
deriving DecidableEq, Repr

instance {ε α : Type} [DecidableEq ε] [DecidableEq α] : DecidableEq (Except ε α) :=
  fun a b =>
  match a, b with
  | .error e, .error f => decidable_of_iff (e = f) (by simp)
  | .ok x, .ok y => decidable_of_iff (x = y) (by simp)
  | .error _, .ok _ => isFalse (fun h => Except.noConfusion h)
  | .ok _, .error _ => isFalse (fun h => Except.noConfusion h)

/-- `TrackableObjectGraph.TrackableObject.SlotVariableReference`. -/
structure SlotVariableReference where
  slot_name : List Char
  original_variable_node_id : Nat
  slot_variable_node_id : Nat
deriving DecidableEq, Repr

/-- The capabilities consumed by `_serialize_slot_variables`: recognising an
optimizer (`isinstance(..., optimizer_v1.Optimizer)` or the
`_create_or_restore_slot_variable` duck test), `get_slot_names`, and
`get_slot` (which may raise). -/
structure TrackingCfg extends GraphCfg where
  isOptimizer : Nat → Bool
  slotNames : Nat → List (List Char)
  getSlot : Nat → Nat → List Char → Except PyErr (Option Nat)

/-- The mutable state threaded through `_serialize_slot_variables`:
`trackable_objects`, `node_ids`, `object_names` (all mutated in place in the
source) and the accumulated `slot_variables` dictionary. -/
structure SlotSt where
  trackable_objects : List Nat
  node_ids : List (Nat × Nat)
  object_names : List (Nat × List Char)
  slot_variables : List (Nat × List SlotVariableReference)
deriving DecidableEq, Repr

/-- `slot_variables.setdefault(trackable, []).append(slot_variable_proto)`. -/
def append_slot_ref (k : Nat) (v : SlotVariableReference) :
    List (Nat × List SlotVariableReference) → List (Nat × List SlotVariableReference)
  | [] => [(k, [v])]
  | (a, b) :: l => if a = k then (a, b ++ [v]) :: l else (a, b) :: append_slot_ref k v l

/-- The `try: trackable.get_slot(...) except (AttributeError, KeyError):
slot_variable = None` wrapper. -/
def handled_get_slot (r : Except PyErr (Option Nat)) : Except PyErr (Option Nat) :=
  match r with
  | .error e => if e = .attributeError ∨ e = .keyError then .ok none else .error e
  | .ok v => .ok v

/-- The innermost loop of `_serialize_slot_variables`: `for
original_variable_node_id, original_variable in enumerate(non_slot_objects)`. -/
def process_originals (cfg : TrackingCfg) (trackable : Nat)
    (optimizer_path slot_name : List Char) :
    List (Nat × Nat) → SlotSt → Except PyErr SlotSt
  | [], st => .ok st
  | (original_variable_node_id, original_variable) :: rest, st =>
    match handled_get_slot (cfg.getSlot trackable original_variable slot_name) with
    | .error e => .error e
    | .ok none => process_originals cfg trackable optimizer_path slot_name rest st
    | .ok (some slot_variable) =>
      if cfg.deps slot_variable ≠ [] then .error .unsupportedSlotDependency
      else if (alookup slot_variable st.node_ids).isSome then .error .illegalSlotAliasing
      else
        let checkpoint_name := name_slot_variable optimizer_path
          ((alookup original_variable st.object_names).getD []) slot_name
        let slot_variable_node_id := st.trackable_objects.length
        process_originals cfg trackable optimizer_path slot_name rest
          ⟨st.trackable_objects ++ [slot_variable],
            st.node_ids ++ [(slot_variable, slot_variable_node_id)],
            st.object_names ++ [(slot_variable, checkpoint_name)],
            append_slot_ref trackable
              ⟨slot_name, original_variable_node_id, slot_variable_node_id⟩
              st.slot_variables⟩

/-- The `for slot_name in slot_names:` loop. -/
def process_slot_names (cfg : TrackingCfg) (trackable : Nat) (optimizer_path : List Char)
    (non_slot_enum : List (Nat × Nat)) :
    List (List Char) → SlotSt → Except PyErr SlotSt
  | [], st => .ok st
  | slot_name :: rest, st =>
    match process_originals cfg trackable optimizer_path slot_name non_slot_enum st with
    | .error e => .error e
    | .ok st2 => process_slot_names cfg trackable optimizer_path non_slot_enum rest st2

/-- The outer `for trackable in non_slot_objects:` loop. -/
def process_trackables (cfg : TrackingCfg) (non_slot_enum : List (Nat × Nat)) :
    List Nat → SlotSt → Except PyErr SlotSt
  | [], st => .ok st
  | trackable :: rest, st =>
    if cfg.isOptimizer trackable then
      match process_slot_names cfg trackable
        ((alookup trackable st.object_names).getD []) non_slot_enum
        (cfg.slotNames trackable) st with
      | .error e => .error e
      | .ok st2 => process_trackables cfg non_slot_enum rest st2
    else process_trackables cfg non_slot_enum rest st

/-- `_serialize_slot_variables` (the returned `slot_variables` dictionary is the
`slot_variables` field of the final state; the in-place mutations of the other
three arguments are the remaining fields). -/
def serialize_slot_variables (cfg : TrackingCfg) (trackable_objects : List Nat)
    (node_ids : List (Nat × Nat)) (object_names : List (Nat × List Char)) :
    Except PyErr SlotSt :=
  process_trackables cfg trackable_objects.enum trackable_objects
    ⟨trackable_objects, node_ids, object_names, []⟩

/-- `node_ids` as built by `objects_ids_and_slot_variables_and_paths`:
`for node_id, node in enumerate(trackable_objects): node_ids[node] = node_id`. -/
def node_ids_of (trackable_objects : List Nat) : List (Nat × Nat) :=
  trackable_objects.enum.map fun p => (p.2, p.1)

/-- `object_names` as built by `objects_ids_and_slot_variables_and_paths`:
`object_names[obj] = _object_prefix_from_path(path)`. -/
def object_names_of (path_to_root : List (Nat × List TrackableReference)) :
    List (Nat × List Char) :=
  path_to_root.map fun e => (e.1, object_prefix_from_path e.2)

/-- The tuple returned by `objects_ids_and_slot_variables_and_paths`. -/
structure ObjectsIdsResult where
  trackable_objects : List Nat
  path_to_root : List (Nat × List TrackableReference)
  node_ids : List (Nat × Nat)
  slot_variables : List (Nat × List SlotVariableReference)
  object_names : List (Nat × List Char)
deriving DecidableEq, Repr

/-- `ObjectGraphView.objects_ids_and_slot_variables_and_paths`. -/
def objects_ids_and_slot_variables_and_paths (cfg : TrackingCfg) :
    Except PyErr ObjectsIdsResult :=
  let sp := breadth_first_traversal cfg.toGraphCfg
  match serialize_slot_variables cfg sp.1 (node_ids_of sp.1) (object_names_of sp.2) with
  | .error e => .error e
  | .ok st => .ok ⟨st.trackable_objects, sp.2, st.node_ids, st.slot_variables,
      st.object_names⟩

/-! ### Graph record (`_fill_object_graph_proto`) -/

/-- One child entry of a `TrackableObject` proto. -/
structure TrackableObjectChild where
  node_id : Nat
  local_name : List Char
deriving DecidableEq, Repr

/-- One attribute entry of a `TrackableObject` proto (proto3 defaults: empty
`full_name`, `optional_restore` false until assigned). -/
structure AttributeProto where
  name : List Char
  checkpoint_key : List Char
  full_name : List Char
  optional_restore : Bool
deriving DecidableEq, Repr

/-- One node of the `TrackableObjectGraph` proto. -/
structure TrackableObjectProto where
  slot_variables : List SlotVariableReference
  children : List TrackableObjectChild
  attributes : List AttributeProto
deriving DecidableEq, Repr

/-- The loop of `_fill_object_graph_proto`, with the
`assert node_ids[trackable] == checkpoint_id` surfaced as a fatal
`nodeIdMismatch` (a failing lookup also trips the assertion). -/
def fill_object_graph_aux (cfg : TrackingCfg) (node_ids : List (Nat × Nat))
    (slot_variables : List (Nat × List SlotVariableReference)) :
    List (Nat × Nat) → Except PyErr (List TrackableObjectProto)
  | [] => .ok []
  | (checkpoint_id, trackable) :: rest =>
    if alookup trackable node_ids = some checkpoint_id then
      match fill_object_graph_aux cfg node_ids slot_variables rest with
      | .error e => .error e
      | .ok protos =>
        .ok (⟨(alookup trackable slot_variables).getD [],
          (cfg.deps trackable).map fun child =>
            ⟨(alookup child.ref node_ids).getD 0, child.name⟩,
          []⟩ :: protos)
    else .error .nodeIdMismatch

/-- `ObjectGraphView._fill_object_graph_proto` (fresh proto argument). -/
def fill_object_graph_proto (cfg : TrackingCfg) (trackable_objects : List Nat)
    (node_ids : List (Nat × Nat))
    (slot_variables : List (Nat × List SlotVariableReference)) :
    Except PyErr (List TrackableObjectProto) :=
  fill_object_graph_aux cfg node_ids slot_variables trackable_objects.enum

/-! ### Saveables (`_add_attributes_to_object_graph`) -/

/-- A `SaveableObject` as observed by this module: its `name` (internal
identifier), `optional_restore` flag, optional `full_name`, whether it is a
`base.PythonStateSaveable`, and its `feed_dict_additions()` result. -/
structure SaveableObject where
  name : List Char
  optional_restore : Bool
  full_name : Option (List Char)
  is_python_state : Bool
  feed_dict : List (List Char × Nat)
deriving DecidableEq, Repr

/-- `_CheckpointFactoryData` (the factory is an opaque handle). -/
structure CheckpointFactoryData where
  factory : Nat
  name : List Char
  checkpoint_key : List Char
deriving DecidableEq, Repr

/-- Capabilities consumed by `_add_attributes_to_object_graph`:
`_gather_saveables_for_checkpoint` (attribute name to factory handle),
`saveable_object_util.create_saveables_from_factory`, `PythonStateSaveable.freeze`,
and the caller-owned `saveables_cache`. -/
structure SaveCfg extends TrackingCfg where
  gather_saveables : Nat → List (List Char × Nat)
  create_saveables : Nat → List Char → List SaveableObject
  freeze : SaveableObject → SaveableObject
  saveables_cache : Option (List (Nat × List (List Char × List SaveableObject)))

/-- `get_checkpoint_factories_and_keys` (checkpoint mode). -/
def get_checkpoint_factories_and_keys (cfg : SaveCfg)
    (object_names : List (Nat × List Char)) : List (Nat × List CheckpointFactoryData) :=
  object_names.map fun e =>
    (e.1, (cfg.gather_saveables e.1).map fun nf =>
      ⟨nf.2, nf.1, checkpoint_key_of e.2 nf.1⟩)

/-- Python's substring test `key in s`. -/
def substrIn (key : List Char) : List Char → Bool
  | [] => decide (key = [])
  | c :: rest => key.isPrefixOf (c :: rest) || substrIn key rest

/-- Accumulators of the inner `for saveable in saveables:` loop of
`_add_attributes_to_object_graph`. -/
structure SaveablesLoopResult where
  optional_restore : Option Bool
  full_name : List Char
  named_saveable_objects : List SaveableObject
  feed_additions : Option (List (List Char × Nat))
deriving DecidableEq, Repr

/-- The inner `for saveable in saveables:` loop: fold `optional_restore`,
record `full_name`, and freeze or feed `PythonStateSaveable`s, raising
`feedKeyCollision` when a feed key is already present. -/
def process_saveables (freeze : SaveableObject → SaveableObject) :
    List SaveableObject → Option Bool → List Char → List SaveableObject →
    Option (List (List Char × Nat)) → Except PyErr SaveablesLoopResult
  | [], opt, fn, named, feed => .ok ⟨opt, fn, named, feed⟩
  | s :: rest, opt, fn, named, feed =>
    let opt2 := match opt with
      | none => some s.optional_restore
      | some b => some (b && s.optional_restore)
    let fn2 := match s.full_name with
      | some f => f
      | none => fn
    if s.is_python_state then
      match feed with
      | none => process_saveables freeze rest opt2 fn2 (named ++ [freeze s]) none
      | some feed_additions =>
        if s.feed_dict.any fun kv => (alookup kv.1 feed_additions).isSome then
          .error .feedKeyCollision
        else
          process_saveables freeze rest opt2 fn2 (named ++ [s])
            (some (feed_additions ++ s.feed_dict))
    else
      process_saveables freeze rest opt2 fn2 (named ++ [s]) feed

/-- Result of handling one `_CheckpointFactoryData` entry. -/
structure FactoryDataResult where
  attr : AttributeProto
  cached_attributes : Option (List (List Char × List SaveableObject))
  named_saveable_objects : List SaveableObject
  feed_additions : Option (List (List Char × Nat))
deriving DecidableEq, Repr

/-- The body of the `for factory_data in checkpoint_factory_map[trackable]:`
loop: consult the cache (an entry is reused only when every cached saveable's
name contains the current checkpoint key, and deleted otherwise), create fresh
saveables when needed (raising `adapterKeyMismatch` if a created saveable's
name lacks the key), store them back when caching, then run the saveable
loop. -/
def process_factory_data (create_saveables : Nat → List Char → List SaveableObject)
    (freeze : SaveableObject → SaveableObject)
    (cached_attributes : Option (List (List Char × List SaveableObject)))
    (factory_data : CheckpointFactoryData)
    (named : List SaveableObject) (feed : Option (List (List Char × Nat))) :
    Except PyErr FactoryDataResult :=
  let name := factory_data.name
  let key := factory_data.checkpoint_key
  let cached0 : Option (List SaveableObject) :=
    match cached_attributes with
    | some ca => alookup name ca
    | none => none
  let hit : Option (List SaveableObject) × Option (List (List Char × List SaveableObject)) :=
    match cached0 with
    | some svs =>
      if svs.all fun s => substrIn key s.name then (some svs, cached_attributes)
      else (none, match cached_attributes with
        | some ca => some (adel name ca)
        | none => none)
    | none => (none, cached_attributes)
  match hit.1 with
  | some svs =>
    match process_saveables freeze svs none [] named feed with
    | .error e => .error e
    | .ok r =>
      .ok ⟨⟨name, key, r.full_name, r.optional_restore.getD false⟩,
        hit.2, r.named_saveable_objects, r.feed_additions⟩
  | none =>
    let svs := create_saveables factory_data.factory key
    if svs.all fun s => substrIn key s.name then
      match process_saveables freeze svs none [] named feed with
      | .error e => .error e
      | .ok r =>
        .ok ⟨⟨name, key, r.full_name, r.optional_restore.getD false⟩,
          (match hit.2 with
            | some ca => some (aset name svs ca)
            | none => none),
          r.named_saveable_objects, r.feed_additions⟩
    else .error .adapterKeyMismatch

/-- Accumulators for one trackable's run over its factory-data list. -/
structure TrackableAttrResult where
  attributes : List AttributeProto
  cached_attributes : Option (List (List Char × List SaveableObject))
  named_saveable_objects : List SaveableObject
  feed_additions : Option (List (List Char × Nat))
deriving DecidableEq, Repr

/-- The `for factory_data in checkpoint_factory_map[trackable]:` loop. -/
def process_factory_list (create_saveables : Nat → List Char → List SaveableObject)
    (freeze : SaveableObject → SaveableObject) :
    List CheckpointFactoryData →
    Option (List (List Char × List SaveableObject)) →
    List SaveableObject → Option (List (List Char × Nat)) →
    Except PyErr TrackableAttrResult
  | [], cached, named, feed => .ok ⟨[], cached, named, feed⟩
  | fd :: rest, cached, named, feed =>
    match process_factory_data create_saveables freeze cached fd named feed with
    | .error e => .error e
    | .ok r =>
      match process_factory_list create_saveables freeze rest r.cached_attributes
        r.named_saveable_objects r.feed_additions with
      | .error e => .error e
      | .ok rr => .ok ⟨r.attr :: rr.attributes, rr.cached_attributes,
          rr.named_saveable_objects, rr.feed_additions⟩

/-- Result of `_add_attributes_to_object_graph`: the updated protos, the flat
saveable list, the feed map, and the updated caller-owned cache. -/
structure AddAttributesResult where
  object_graph_proto : List TrackableObjectProto
  named_saveable_objects : List SaveableObject
  feed_additions : Option (List (List Char × Nat))
  saveables_cache : Option (List (Nat × List (List Char × List SaveableObject)))
deriving DecidableEq, Repr

/-- The `for checkpoint_id, (trackable, object_proto) in enumerate(zip(...))`
loop of `_add_attributes_to_object_graph`, including the
`assert node_ids[trackable] == checkpoint_id` and the
`saveables_cache.setdefault(trackable, {})` bookkeeping. -/
def process_nodes (cfg : SaveCfg)
    (checkpoint_factory_map : List (Nat × List CheckpointFactoryData))
    (node_ids : List (Nat × Nat)) :
    List (Nat × Nat × TrackableObjectProto) →
    Option (List (Nat × List (List Char × List SaveableObject))) →
    List SaveableObject → Option (List (List Char × Nat)) →
    Except PyErr AddAttributesResult
  | [], cache, named, feed => .ok ⟨[], named, feed, cache⟩
  | (checkpoint_id, trackable, object_proto) :: rest, cache, named, feed =>
    if alookup trackable node_ids = some checkpoint_id then
      let cache2 := match cache with
        | some c => some (if (alookup trackable c).isSome then c else aset trackable [] c)
        | none => none
      let cached_attributes := match cache2 with
        | some c => some ((alookup trackable c).getD [])
        | none => none
      match process_factory_list cfg.create_saveables cfg.freeze
        ((alookup trackable checkpoint_factory_map).getD []) cached_attributes named feed with
      | .error e => .error e
      | .ok r =>
        match process_nodes cfg checkpoint_factory_map node_ids rest
          (match cache2, r.cached_attributes with
            | some c, some ca => some (aset trackable ca c)
            | _, _ => cache2)
          r.named_saveable_objects r.feed_additions with
        | .error e => .error e
        | .ok rr =>
          .ok ⟨{ object_proto with attributes := object_proto.attributes ++ r.attributes }
              :: rr.object_graph_proto,
            rr.named_saveable_objects, rr.feed_additions, rr.saveables_cache⟩
    else .error .nodeIdMismatch

/-- `ObjectGraphView._add_attributes_to_object_graph`. -/
def add_attributes_to_object_graph (cfg : SaveCfg) (trackable_objects : List Nat)
    (object_graph_proto : List TrackableObjectProto)
    (node_ids : List (Nat × Nat)) (object_names : List (Nat × List Char)) :
    Except PyErr AddAttributesResult :=
  process_nodes cfg (get_checkpoint_factories_and_keys cfg object_names) node_ids
    (trackable_objects.zip object_graph_proto).enum
    cfg.saveables_cache []
    (match cfg.saveables_cache with
      | none => none
      | some _ => some [])

/-- `ObjectGraphView.serialize_object_graph`. -/
def serialize_object_graph (cfg : SaveCfg) :
    Except PyErr (List SaveableObject × List TrackableObjectProto
      × Option (List (List Char × Nat))) :=
  match objects_ids_and_slot_variables_and_paths cfg.toTrackingCfg with
  | .error e => .error e
  | .ok r =>
    match fill_object_graph_proto cfg.toTrackingCfg r.trackable_objects r.node_ids
      r.slot_variables with
    | .error e => .error e
    | .ok protos =>
      match add_attributes_to_object_graph cfg r.trackable_objects protos r.node_ids
        r.object_names with
      | .error e => .error e
      | .ok ar => .ok (ar.named_saveable_objects, ar.object_graph_proto,
          ar.feed_additions)

/-! ### Concrete example configurations (used to instantiate theorems) -/

/-- A two-node graph: the root points to node 1 under local name `a`. -/
def exampleCfg : GraphCfg :=
  ⟨2, 0, fun i => if i = 0 then [⟨['a'], 1⟩] else []⟩

/-- A two-node graph with a tie: the root lists node 1 twice, first under
`a`, then under `b`. -/
def tieCfg : GraphCfg :=
  ⟨2, 0, fun i => if i = 0 then [⟨['a'], 1⟩, ⟨['b'], 1⟩] else []⟩

/-- A graph whose root lists two distinct children under the same local
name `a`. -/
def collideCfg : GraphCfg :=
  ⟨3, 0, fun i => if i = 0 then [⟨['a'], 1⟩, ⟨['a'], 2⟩] else []⟩

/-- A three-node graph: the root points to node 1 under `a` and node 2
under `b`. -/
def exampleCfg2 : GraphCfg :=
  ⟨3, 0, fun i => if i = 0 then [⟨['a'], 1⟩, ⟨['b'], 2⟩] else []⟩

/-- A tracking configuration where `get_slot` returns a slot variable (handle 9)
that has dependencies of its own. -/
def slotCfgBad : TrackingCfg :=
  ⟨⟨3, 0, fun i => if i = 9 then [⟨['x'], 1⟩] else []⟩,
    fun _ => true, fun _ => [['m']], fun _ _ _ => .ok (some 9)⟩

/-- A tracking configuration where `get_slot` returns a slot variable that is
already a registered node (handle 1). -/
def slotCfgAlias : TrackingCfg :=
  ⟨⟨3, 0, fun _ => []⟩, fun _ => true, fun _ => [['m']], fun _ _ _ => .ok (some 1)⟩

/-- A state with two registered nodes 0 and 1. -/
def slotStEx : SlotSt :=
  ⟨[0, 1], [(0, 0), (1, 1)], [(0, []), (1, ['a'])], []⟩

/-- Example tracking configuration over `exampleCfg`: the root is an optimizer
with one slot name `m`, and tracks a slot variable (handle 5) for node 1. -/
def trackCfgEx : TrackingCfg :=
  ⟨exampleCfg, fun t => t = 0, fun _ => [['m']],
    fun _ o _ => if o = 1 then .ok (some 5) else .ok none⟩

/-- `trackCfgEx` with `get_slot` always raising `AttributeError`. -/
def trackCfgRaise : TrackingCfg :=
  ⟨exampleCfg, fun t => t = 0, fun _ => [['m']],
    fun _ _ _ => .error .attributeError⟩

/-- `trackCfgEx` with `get_slot` always returning `None`. -/
def trackCfgNone : TrackingCfg :=
  ⟨exampleCfg, fun t => t = 0, fun _ => [['m']], fun _ _ _ => .ok none⟩

/-- `trackCfgEx` with `get_slot` always raising an exception outside
`(AttributeError, KeyError)`. -/
def trackCfgOther : TrackingCfg :=
  ⟨exampleCfg, fun t => t = 0, fun _ => [['m']], fun _ _ _ => .error .otherError⟩

/-- The state produced by slot-variable resolution on `trackCfgEx`. -/
def slotStGood : SlotSt :=
  ⟨[0, 1, 5], [(0, 0), (1, 1), (5, 2)],
    [(0, []), (1, ['a']), (5, "a/.OPTIMIZER_SLOT//m".toList)],
    [(0, [⟨['m'], 1, 2⟩])]⟩

/-- The result of `objects_ids_and_slot_variables_and_paths` on `trackCfgEx`. -/
def oiasvapEx : ObjectsIdsResult :=
  ⟨[0, 1, 5], [(0, []), (1, [⟨['a'], 1⟩])], [(0, 0), (1, 1), (5, 2)],
    [(0, [⟨['m'], 1, 2⟩])],
    [(0, []), (1, ['a']), (5, "a/.OPTIMIZER_SLOT//m".toList)]⟩

/-- A plain saveable named `k` with `optional_restore` set. -/
def svA : SaveableObject := ⟨['k'], true, none, false, []⟩

/-- A plain saveable named `k` with `optional_restore` unset. -/
def svB : SaveableObject := ⟨['k'], false, none, false, []⟩

/-- A factory-data entry with attribute name `v` and checkpoint key `k`. -/
def fdEx : CheckpointFactoryData := ⟨0, ['v'], ['k']⟩

/-- The expected result of materializing `fdEx` against `fun _ _ => [svA, svB]`
with no cache. -/
def resFdEx : FactoryDataResult :=
  ⟨⟨['v'], ['k'], [], false⟩, none, [svA, svB], none⟩

/-- A stale saveable whose name `z` lacks the checkpoint key `k`. -/
def svZ : SaveableObject := ⟨['z'], true, none, false, []⟩

/-- A cache entry for attribute `v` whose saveable names contain key `k`. -/
def cacheHitEx : List (List Char × List SaveableObject) := [(['v'], [svA])]

/-- A cache entry for attribute `v` whose saveable name lacks key `k`. -/
def cacheStaleEx : List (List Char × List SaveableObject) := [(['v'], [svZ])]

/-- The expected rebuild result on the stale cache. -/
def resStaleEx : FactoryDataResult :=
  ⟨⟨['v'], ['k'], [], true⟩, some (aset ['v'] [svA] (adel ['v'] cacheStaleEx)),
    [svA], none⟩


/-! ### Theorems -/


theorem escape_local_name_eq_flatMap (s : List Char) :
    escape_local_name s = s.flatMap escapeChar := by
  induction s with
  | nil => rfl
  | cons c s ih =>
    simp only [escape_local_name, replaceChar, List.flatMap_cons, ESCAPE_CHAR] at *
    by_cases hdot : c = '.'
    · subst hdot
      simpa [escapeChar] using ih
    · by_cases hsl : c = '/'
      · subst hsl
        simpa [escapeChar] using ih
      · simp only [if_neg hdot, if_neg hsl]
        simpa [escapeChar, hdot, hsl] using ih

theorem slash_not_mem_escapeChar (c : Char) : '/' ∉ escapeChar c := by
  by_cases hdot : c = '.'
  · subst hdot; simp [escapeChar]
  · by_cases hsl : c = '/'
    · subst hsl; simp [escapeChar]
    · simp [escapeChar, hdot, hsl]
      exact fun h => hsl h.symm

/-- Escaped local names never contain the path separator. -/
theorem slash_not_mem_escape (s : List Char) : '/' ∉ escape_local_name s := by
  rw [escape_local_name_eq_flatMap]
  intro h
  rcases List.mem_flatMap.mp h with ⟨c, _, hc⟩
  exact slash_not_mem_escapeChar c hc

theorem escapeChar_ne_nil (c : Char) : escapeChar c ≠ [] := by
  by_cases hdot : c = '.'
  · subst hdot; simp [escapeChar]
  · by_cases hsl : c = '/'
    · subst hsl; simp [escapeChar]
    · simp [escapeChar, hdot, hsl]

theorem escapeChar_trichotomy (c : Char) :
    (c = '.' ∧ escapeChar c = ['.', '.']) ∨ (c = '/' ∧ escapeChar c = ['.', 'S'])
      ∨ (c ≠ '.' ∧ c ≠ '/' ∧ escapeChar c = [c]) := by
  by_cases hdot : c = '.'
  · exact Or.inl ⟨hdot, by simp [escapeChar, hdot]⟩
  · by_cases hsl : c = '/'
    · exact Or.inr (Or.inl ⟨hsl, by simp [escapeChar, hsl, hdot]⟩)
    · exact Or.inr (Or.inr ⟨hdot, hsl, by simp [escapeChar, hdot, hsl]⟩)

/-- The per-character code is injective once continued by arbitrary tails:
the escaping is a prefix-free code. -/
theorem escapeChar_append_inj {a b : Char} {s t : List Char}
    (h : escapeChar a ++ s = escapeChar b ++ t) : a = b ∧ s = t := by
  rcases escapeChar_trichotomy a with ⟨ha, hea⟩ | ⟨ha, hea⟩ | ⟨ha1, ha2, hea⟩ <;>
    rcases escapeChar_trichotomy b with ⟨hb, heb⟩ | ⟨hb, heb⟩ | ⟨hb1, hb2, heb⟩ <;>
      rw [hea, heb] at h <;> simp only [List.cons_append, List.nil_append] at h
  · injection h with h1 h2; injection h2 with h3 h4
    exact ⟨ha.trans hb.symm, h4⟩
  · injection h with h1 h2; injection h2 with h3 h4
    exact absurd h3 (by decide)
  · injection h with h1 h2
    exact absurd h1.symm hb1
  · injection h with h1 h2; injection h2 with h3 h4
    exact absurd h3 (by decide)
  · injection h with h1 h2; injection h2 with h3 h4
    exact ⟨ha.trans hb.symm, h4⟩
  · injection h with h1 h2
    exact absurd h1.symm hb1
  · injection h with h1 h2
    exact absurd h1 ha1
  · injection h with h1 h2
    exact absurd h1 ha1
  · injection h with h1 h2
    exact ⟨h1, h2⟩

theorem flatMap_escapeChar_inj : ∀ s t : List Char,
    s.flatMap escapeChar = t.flatMap escapeChar → s = t := by
  intro s
  induction s with
  | nil =>
    intro t h
    cases t with
    | nil => rfl
    | cons b t =>
      exfalso
      simp only [List.flatMap_nil, List.flatMap_cons] at h
      exact escapeChar_ne_nil b (List.append_eq_nil.mp h.symm).1
  | cons a s ih =>
    intro t h
    cases t with
    | nil =>
      exfalso
      simp only [List.flatMap_nil, List.flatMap_cons] at h
      exact escapeChar_ne_nil a (List.append_eq_nil.mp h).1
    | cons b t =>
      simp only [List.flatMap_cons] at h
      obtain ⟨hab, hst⟩ := escapeChar_append_inj h
      exact hab ▸ congrArg (List.cons a) (ih t hst)

/-- `_escape_local_name` is injective. -/
theorem escape_local_name_inj {s t : List Char}
    (h : escape_local_name s = escape_local_name t) : s = t := by
  rw [escape_local_name_eq_flatMap, escape_local_name_eq_flatMap] at h
  exact flatMap_escapeChar_inj s t h

/-! ### Joining slash-free segments -/

/-- Cancellation around the first slash: if `x` and `y` are slash-free then
`x ++ '/' :: u = y ++ '/' :: v` forces `x = y` and `u = v`. -/
theorem slashfree_append_cancel : ∀ x y u v : List Char, '/' ∉ x → '/' ∉ y →
    x ++ '/' :: u = y ++ '/' :: v → x = y ∧ u = v := by
  intro x
  induction x with
  | nil =>
    intro y u v _ hy h
    cases y with
    | nil => simpa using h
    | cons c y =>
      exfalso
      simp only [List.nil_append, List.cons_append, List.cons.injEq] at h
      exact hy (h.1 ▸ List.mem_cons_self c y)
  | cons a x ih =>
    intro y u v hx hy h
    cases y with
    | nil =>
      exfalso
      simp only [List.cons_append, List.nil_append, List.cons.injEq] at h
      exact hx (h.1 ▸ List.mem_cons_self a x)
    | cons b y =>
      simp only [List.cons_append, List.cons.injEq] at h
      obtain ⟨rfl, h2⟩ := h
      obtain ⟨h3, h4⟩ := ih y u v (fun hm => hx (List.mem_cons_of_mem a hm))
        (fun hm => hy (List.mem_cons_of_mem a hm)) h2
      exact ⟨h3 ▸ rfl, h4⟩

theorem slash_mem_joinSlash_cons_cons (x y : List Char) (xs : List (List Char)) :
    '/' ∈ joinSlash (x :: y :: xs) := by
  simp [joinSlash]

/-- `joinSlash` is injective on nonempty lists of slash-free segments. -/
theorem joinSlash_inj : ∀ xs ys : List (List Char),
    (∀ x ∈ xs, '/' ∉ x) → (∀ y ∈ ys, '/' ∉ y) → xs ≠ [] → ys ≠ [] →
    joinSlash xs = joinSlash ys → xs = ys := by
  intro xs
  induction xs with
  | nil => intro ys _ _ hne; exact absurd rfl hne
  | cons x xs ih =>
    intro ys hxs hys _ hysne h
    cases ys with
    | nil => exact absurd rfl hysne
    | cons y ys =>
      cases xs with
      | nil =>
        cases ys with
        | nil => simpa [joinSlash] using h
        | cons y2 ys =>
          exfalso
          simp only [joinSlash] at h
          exact hxs x (List.mem_cons_self x []) (h ▸ slash_mem_joinSlash_cons_cons y y2 ys)
      | cons x2 xs =>
        cases ys with
        | nil =>
          exfalso
          simp only [joinSlash] at h
          exact hys y (List.mem_cons_self y []) (h.symm ▸ slash_mem_joinSlash_cons_cons x x2 xs)
        | cons y2 ys =>
          simp only [joinSlash] at h
          obtain ⟨rfl, h2⟩ := slashfree_append_cancel x y _ _
            (hxs x (List.mem_cons_self x _)) (hys y (List.mem_cons_self y _)) h
          have := ih (y2 :: ys) (fun a ha => hxs a (List.mem_cons_of_mem x ha))
            (fun a ha => hys a (List.mem_cons_of_mem x ha))
            (by simp) (by simp) (by simpa [joinSlash] using h2)
          rw [this]

/-- `_object_prefix_from_path` separates distinct local-name sequences, for
nonempty paths. -/
theorem object_prefix_inj (p q : List TrackableReference)
    (hnames : p.map TrackableReference.name ≠ q.map TrackableReference.name)
    (hp : p ≠ []) (hq : q ≠ []) :
    object_prefix_from_path p ≠ object_prefix_from_path q := by
  intro h
  apply hnames
  simp only [object_prefix_from_path] at h
  have hinj := joinSlash_inj (p.map fun t => escape_local_name t.name)
    (q.map fun t => escape_local_name t.name)
    (by intro x hx; rcases List.mem_map.mp hx with ⟨t, _, rfl⟩; exact slash_not_mem_escape _)
    (by intro x hx; rcases List.mem_map.mp hx with ⟨t, _, rfl⟩; exact slash_not_mem_escape _)
    (by simpa using hp) (by simpa using hq) h
  have : (p.map TrackableReference.name).map escape_local_name
      = (q.map TrackableReference.name).map escape_local_name := by
    simpa [List.map_map, Function.comp] using hinj
  exact List.map_injective_iff.mpr (fun _ _ => escape_local_name_inj) this

theorem alookup_append_left {α : Type} [DecidableEq α] {β : Type} {k : α} {l m : List (α × β)} {v : β}
    (h : alookup k l = some v) : alookup k (l ++ m) = some v := by
  induction l with
  | nil => simp [alookup] at h
  | cons e l ih =>
    obtain ⟨a, b⟩ := e
    by_cases ha : a = k
    · simp_all [alookup]
    · simp only [alookup, if_neg ha] at h
      simpa [alookup, ha] using ih h

theorem alookup_append_right {α : Type} [DecidableEq α] {β : Type} {k : α} {l : List (α × β)} (m : List (α × β))
    (h : alookup k l = none) : alookup k (l ++ m) = alookup k m := by
  induction l with
  | nil => simp
  | cons e l ih =>
    obtain ⟨a, b⟩ := e
    by_cases ha : a = k
    · simp [alookup, ha] at h
    · simp only [alookup, if_neg ha] at h
      simpa [alookup, ha] using ih h

theorem alookup_append_none {α : Type} [DecidableEq α] {β : Type} {k : α} {l m : List (α × β)}
    (h : alookup k (l ++ m) = none) : alookup k l = none ∧ alookup k m = none := by
  induction l with
  | nil => exact ⟨rfl, by simpa using h⟩
  | cons e l ih =>
    obtain ⟨a, b⟩ := e
    by_cases ha : a = k
    · simp [alookup, ha] at h
    · simp only [List.cons_append, alookup, if_neg ha] at h
      obtain ⟨h1, h2⟩ := ih h
      exact ⟨by simp [alookup, ha, h1], h2⟩

theorem alookup_eq_none_iff {α : Type} [DecidableEq α] {β : Type} {k : α} {l : List (α × β)} :
    alookup k l = none ↔ k ∉ l.map Prod.fst := by
  induction l with
  | nil => simp [alookup]
  | cons e l ih =>
    obtain ⟨a, b⟩ := e
    by_cases ha : a = k
    · subst ha; simp [alookup]
    · simp [alookup, ha, ih, Ne.symm ha]

theorem alookup_isSome_iff {α : Type} [DecidableEq α] {β : Type} {k : α} {l : List (α × β)} :
    (alookup k l).isSome = true ↔ k ∈ l.map Prod.fst := by
  rw [← Decidable.not_iff_not, ← alookup_eq_none_iff]
  cases alookup k l <;> simp

theorem alookup_mem {α : Type} [DecidableEq α] {β : Type} {k : α} {l : List (α × β)} {v : β}
    (h : alookup k l = some v) : (k, v) ∈ l := by
  induction l with
  | nil => simp [alookup] at h
  | cons e l ih =>
    obtain ⟨a, b⟩ := e
    by_cases ha : a = k
    · simp only [alookup, if_pos ha] at h
      subst ha; cases h; exact List.mem_cons_self _ _
    · simp only [alookup, if_neg ha] at h
      exact List.mem_cons_of_mem _ (ih h)

theorem alookup_get_of_nodup {α : Type} [DecidableEq α] {β : Type} {l : List (α × β)}
    (hnd : (l.map Prod.fst).Nodup) (i : Fin l.length) :
    alookup (l.get i).1 l = some (l.get i).2 := by
  induction l with
  | nil => exact absurd i.isLt (by simp)
  | cons e l ih =>
    obtain ⟨a, b⟩ := e
    rcases i with ⟨iv, hi⟩
    cases iv with
    | zero => simp [alookup]
    | succ n =>
      simp only [List.map_cons, List.nodup_cons] at hnd
      have hn : n < l.length := by simpa using Nat.lt_of_succ_lt_succ hi
      have hne : ¬ a = (l.get ⟨n, hn⟩).1 := by
        intro hcontra
        exact hnd.1 (hcontra ▸ List.mem_map_of_mem Prod.fst (l.get_mem _ _))
      have hstep : ((a, b) :: l).get ⟨n + 1, hi⟩ = l.get ⟨n, hn⟩ := rfl
      rw [hstep]
      simp only [alookup, if_neg hne]
      exact ih hnd.2 ⟨n, hn⟩

theorem mem_of_get {α : Type} (l : List α) (i : Fin l.length) : l.get i ∈ l :=
  l.get_mem _ _

theorem isPathFrom_append_singleton {g : GraphCfg} {u v : Nat} {p : List TrackableReference}
    (hp : isPathFrom g u p v) (r : TrackableReference) (hr : r ∈ g.deps v) :
    isPathFrom g u (p ++ [r]) r.ref := by
  induction p generalizing u with
  | nil => cases hp; exact ⟨hr, rfl⟩
  | cons e p ih => exact ⟨hp.1, ih hp.2⟩

theorem isPathFrom_nil_eq {g : GraphCfg} {u v : Nat} (h : isPathFrom g u [] v) : u = v := h

theorem alookup_of_mem_nodup {α : Type} [DecidableEq α] {β : Type} {l : List (α × β)}
    (hnd : (l.map Prod.fst).Nodup) {k : α} {v : β} (hm : (k, v) ∈ l) :
    alookup k l = some v := by
  induction l with
  | nil => simp at hm
  | cons e l ih =>
    obtain ⟨a, b⟩ := e
    simp only [List.map_cons, List.nodup_cons] at hnd
    rcases List.mem_cons.mp hm with heq | hm2
    · injection heq with h1 h2
      subst h1; subst h2
      simp [alookup]
    · have hak : ¬ a = k := fun hak =>
        hnd.1 (hak ▸ List.mem_map_of_mem Prod.fst hm2)
      simp [alookup, hak, ih hnd.2 hm2]

theorem mem_keys_of_alookup {α : Type} [DecidableEq α] {β : Type} {l : List (α × β)} {k : α} {v : β}
    (h : alookup k l = some v) : k ∈ l.map Prod.fst :=
  List.mem_map_of_mem Prod.fst (alookup_mem h)

/-- Characterisation of the inner dependency fold of `_breadth_first_traversal`:
it appends a block of newly discovered entries to both the queue and the path
map. -/
theorem foldl_discover_decomp (cp : List TrackableReference) :
    ∀ (ds : List TrackableReference) (rest : List Nat)
      (paths : List (Nat × List TrackableReference)),
    ∃ new : List (Nat × List TrackableReference),
      ds.foldl (discover cp) (rest, paths) = (rest ++ new.map Prod.fst, paths ++ new)
      ∧ (∀ e ∈ new, ∃ r l1 l2, ds = l1 ++ r :: l2 ∧ (∀ r2 ∈ l1, r2.ref ≠ e.1)
          ∧ r.ref = e.1 ∧ e.2 = cp ++ [r]
          ∧ alookup e.1 paths = none)
      ∧ (new.map Prod.fst).Nodup
      ∧ (∀ r ∈ ds, ∃ pv, alookup r.ref (paths ++ new) = some pv
          ∧ ((r.ref, pv) ∈ paths ∨ pv.length = cp.length + 1)) := by
  intro ds
  induction ds with
  | nil =>
    intro rest paths
    exact ⟨[], by simp, by simp, by simp, by simp⟩
  | cons r ds ih =>
    intro rest paths
    by_cases hseen : (alookup r.ref paths).isSome = true
    · obtain ⟨new, heq, hent, hnd, hall⟩ := ih rest paths
      refine ⟨new, ?_, ?_, hnd, ?_⟩
      · simpa [discover, hseen] using heq
      · intro e he
        obtain ⟨r', l1, l2, hds, hl1, h2, h3, h4⟩ := hent e he
        refine ⟨r', r :: l1, l2, by rw [hds]; rfl, ?_, h2, h3, h4⟩
        intro r2 hr2
        rcases List.mem_cons.mp hr2 with rfl | hmem
        · intro hcontra
          rw [hcontra] at hseen
          rw [h4] at hseen
          exact absurd hseen (by simp)
        · exact hl1 r2 hmem
      · intro r' hr'
        rcases List.mem_cons.mp hr' with rfl | hmem
        · obtain ⟨pv, hpv⟩ := Option.isSome_iff_exists.mp hseen
          exact ⟨pv, alookup_append_left hpv, Or.inl (alookup_mem hpv)⟩
        · exact hall r' hmem
    · have hnone : alookup r.ref paths = none := Option.not_isSome_iff_eq_none.mp hseen
      obtain ⟨new, heq, hent, hnd, hall⟩ :=
        ih (rest ++ [r.ref]) (paths ++ [(r.ref, cp ++ [r])])
      refine ⟨(r.ref, cp ++ [r]) :: new, ?_, ?_, ?_, ?_⟩
      · simpa [discover, hseen] using heq
      · intro e he
        rcases List.mem_cons.mp he with rfl | hmem
        · exact ⟨r, [], ds, rfl, by simp, rfl, rfl, hnone⟩
        · obtain ⟨r', l1, l2, hds, hl1, h2, h3, h4⟩ := hent e hmem
          have hfresh1 : alookup e.1 (paths ++ [(r.ref, cp ++ [r])]) = none := h4
          refine ⟨r', r :: l1, l2, by rw [hds]; rfl, ?_, h2, h3,
            (alookup_append_none h4).1⟩
          intro r2 hr2
          rcases List.mem_cons.mp hr2 with rfl | hmem2
          · intro hcontra
            have := (alookup_append_none hfresh1).2
            rw [← hcontra] at this
            simp [alookup] at this
          · exact hl1 r2 hmem2
      · simp only [List.map_cons, List.nodup_cons]
        constructor
        · intro hcontra
          rcases List.mem_map.mp hcontra with ⟨e, he, hfst⟩
          obtain ⟨r', _, _, _, _, _, _, h4⟩ := hent e he
          have := (alookup_append_none h4).2
          rw [hfst] at this
          simp [alookup] at this
        · exact hnd
      · intro r' hr'
        rcases List.mem_cons.mp hr' with rfl | hmem
        · refine ⟨cp ++ [r'], ?_, Or.inr (by simp)⟩
          rw [alookup_append_right _ hnone]
          simp [alookup]
        · obtain ⟨pv, hpv, hcase⟩ := hall r' hmem
          refine ⟨pv, by simpa using hpv, ?_⟩
          rcases hcase with hmem2 | hlen
          · rcases List.mem_append.mp hmem2 with h | h
            · exact Or.inl h
            · simp only [List.mem_singleton] at h
              injection h with h1 h2
              subst h2
              exact Or.inr (by simp)
          · exact Or.inr hlen

/-- Expanding the queue head preserves the invariant. -/
theorem bfsInv_step (g : GraphCfg) (hwf : WellFormedGraph g)
    (current : Nat) (rest bfs_sorted : List Nat)
    (paths : List (Nat × List TrackableReference))
    (inv : BfsInv g (current :: rest) bfs_sorted paths)
    (queue2 : List Nat) (paths2 : List (Nat × List TrackableReference))
    (hst : (g.deps current).foldl (discover ((alookup current paths).getD []))
      (rest, paths) = (queue2, paths2)) :
    BfsInv g queue2 (bfs_sorted ++ [current]) paths2
    ∧ paths2.length + rest.length = queue2.length + paths.length
    ∧ paths2.length ≤ g.numNodes
    ∧ paths.length ≤ paths2.length := by
  -- the head of the queue has a recorded path
  have hcur_mem : current ∈ paths.map Prod.fst := by
    rw [inv.keys_eq]; simp
  obtain ⟨pc, hpc⟩ := Option.isSome_iff_exists.mp (alookup_isSome_iff.mpr hcur_mem)
  have hcp : (alookup current paths).getD [] = pc := by rw [hpc]; rfl
  have hcur_lt : current < g.numNodes := inv.keys_lt _ (alookup_mem hpc)
  have hvalid_pc : isPathFrom g g.root pc current := inv.valid _ (alookup_mem hpc)
  -- decompose the fold
  obtain ⟨new, heq, hent, hndnew, hall⟩ :=
    foldl_discover_decomp ((alookup current paths).getD []) (g.deps current) rest paths
  have hpair : (queue2, paths2) = (rest ++ new.map Prod.fst, paths ++ new) := by
    rw [← hst, heq]
  injection hpair with hq2 hp2
  subst hq2; subst hp2
  rw [hcp] at hent hall
  -- fresh keys are disjoint from existing ones
  have hfresh : ∀ k ∈ new.map Prod.fst, k ∉ paths.map Prod.fst := by
    intro k hk
    rcases List.mem_map.mp hk with ⟨e, he, rfl⟩
    obtain ⟨r, l1, l2, _, _, _, _, h4⟩ := hent e he
    exact alookup_eq_none_iff.mp h4
  -- lookups of new entries
  have hnew_lookup : ∀ e ∈ new, alookup e.1 (paths ++ new) = some e.2 := by
    intro e he
    obtain ⟨r, l1, l2, _, _, _, _, h4⟩ := hent e he
    rw [alookup_append_right _ h4]
    exact alookup_of_mem_nodup hndnew he
  -- each new entry is discovered through the first listed edge that reaches it
  have hnew_first : ∀ e ∈ new, ∃ r l1 l2, g.deps current = l1 ++ r :: l2
      ∧ (∀ r2 ∈ l1, r2.ref ≠ e.1) ∧ r.ref = e.1 ∧ e.2 = pc ++ [r] :=
    fun e he => by
      obtain ⟨r, l1, l2, hds, hl1, h2, h3, _⟩ := hent e he
      exact ⟨r, l1, l2, hds, hl1, h2, h3⟩
  -- new entries extend the head's path by one edge
  have hnew_shape : ∀ e ∈ new, ∃ r, r ∈ g.deps current ∧ r.ref = e.1 ∧ e.2 = pc ++ [r] :=
    fun e he => by
      obtain ⟨r, l1, l2, hds, _, h2, h3⟩ := hnew_first e he
      exact ⟨r, by rw [hds]; exact List.mem_append.mpr (Or.inr (List.mem_cons_self _ _)),
        h2, h3⟩
  -- uniform two-level decomposition of the popped queue
  obtain ⟨d, qA, qB, hq, hA, hB, hbound⟩ := inv.levels
  obtain ⟨d0, rA, rB, hrest, hA0, hB0, hpc_len, hbound0⟩ :
      ∃ d0 rA rB, rest = rA ++ rB
        ∧ (∀ q ∈ rA, ∀ pq, alookup q paths = some pq → pq.length = d0)
        ∧ (∀ q ∈ rB, ∀ pq, alookup q paths = some pq → pq.length = d0 + 1)
        ∧ pc.length = d0
        ∧ (∀ e ∈ paths, e.2.length ≤ d0 + 1) := by
    cases qA with
    | nil =>
      cases qB with
      | nil => simp at hq
      | cons c qB2 =>
        simp only [List.nil_append] at hq
        injection hq with hq1 hq2
        subst hq1; subst hq2
        refine ⟨d + 1, rest, [], by simp, ?_, by simp, ?_, ?_⟩
        · exact fun q hqm pq hpq => hB q (List.mem_cons_of_mem _ hqm) pq hpq
        · exact hB current (List.mem_cons_self _ _) pc hpc
        · exact fun e he => Nat.le_succ_of_le (hbound e he)
    | cons c qA2 =>
      simp only [List.cons_append] at hq
      injection hq with hq1 hq2
      subst hq1; subst hq2
      exact ⟨d, qA2, qB, rfl, fun q hqm => hA q (List.mem_cons_of_mem _ hqm),
        hB, hA current (List.mem_cons_self _ _) pc hpc, hbound⟩
  have hnew_len : ∀ e ∈ new, e.2.length = d0 + 1 := by
    intro e he
    obtain ⟨r, _, _, h3⟩ := hnew_shape e he
    rw [h3]; simp [hpc_len]
  -- the new key set stays bounded, giving the size facts
  have hkeys2_nodup : ((paths ++ new).map Prod.fst).Nodup := by
    rw [List.map_append]
    exact List.nodup_append.mpr ⟨inv.nodup, hndnew,
      fun a ha hb => hfresh a hb ha⟩
  have hkeys2_lt : ∀ e ∈ paths ++ new, e.1 < g.numNodes := by
    intro e he
    rcases List.mem_append.mp he with h | h
    · exact inv.keys_lt e h
    · obtain ⟨r, hr, hre, _⟩ := hnew_shape e h
      exact hre ▸ hwf.2 current hcur_lt r hr
  have hsize : (paths ++ new).length ≤ g.numNodes := by
    have hsub : ((paths ++ new).map Prod.fst) ⊆ List.range g.numNodes := by
      intro a ha
      rcases List.mem_map.mp ha with ⟨e, he, rfl⟩
      exact List.mem_range.mpr (hkeys2_lt e he)
    have := (hkeys2_nodup.subperm hsub).length_le
    simpa using this
  refine ⟨?_, by simp [Nat.add_comm, Nat.add_left_comm], hsize, by simp⟩
  constructor
  -- keys_eq
  · rw [List.map_append, inv.keys_eq]
    simp
  -- nodup
  · exact hkeys2_nodup
  -- keys_lt
  · exact hkeys2_lt
  -- valid
  · intro e he
    rcases List.mem_append.mp he with h | h
    · exact inv.valid e h
    · obtain ⟨r, hr, hre, h3⟩ := hnew_shape e h
      rw [h3]
      exact hre ▸ isPathFrom_append_singleton hvalid_pc r hr
  -- hd
  · cases hpaths : paths with
    | nil => rw [hpaths] at inv; exact absurd inv.hd (by simp)
    | cons e t =>
      have := inv.hd
      rw [hpaths] at this
      simpa using this
  -- levels
  · refine ⟨d0, rA, rB ++ new.map Prod.fst, by rw [hrest]; simp, ?_, ?_, ?_⟩
    · intro q hqm pq hpq
      have hqkeys : q ∈ paths.map Prod.fst := by
        rw [inv.keys_eq, hrest]; simp [hqm]
      obtain ⟨pq0, hpq0⟩ := Option.isSome_iff_exists.mp (alookup_isSome_iff.mpr hqkeys)
      rw [alookup_append_left hpq0] at hpq
      injection hpq with hpq
      exact hpq ▸ hA0 q hqm pq0 hpq0
    · intro q hqm pq hpq
      rcases List.mem_append.mp hqm with h | h
      · have hqkeys : q ∈ paths.map Prod.fst := by
          rw [inv.keys_eq, hrest]; simp [h]
        obtain ⟨pq0, hpq0⟩ := Option.isSome_iff_exists.mp (alookup_isSome_iff.mpr hqkeys)
        rw [alookup_append_left hpq0] at hpq
        injection hpq with hpq
        exact hpq ▸ hB0 q h pq0 hpq0
      · rcases List.mem_map.mp h with ⟨e, he, rfl⟩
        rw [hnew_lookup e he] at hpq
        injection hpq with hpq
        exact hpq ▸ hnew_len e he
    · intro e he
      rcases List.mem_append.mp he with h | h
      · exact hbound0 e h
      · exact Nat.le_of_eq (hnew_len e h)
  -- closed
  · intro u hu pu hpu r hr
    rcases List.mem_append.mp hu with h | h
    · have hukeys : u ∈ paths.map Prod.fst := by
        rw [inv.keys_eq]; simp [List.mem_append.mpr (Or.inl h)]
      obtain ⟨pu0, hpu0⟩ := Option.isSome_iff_exists.mp (alookup_isSome_iff.mpr hukeys)
      rw [alookup_append_left hpu0] at hpu
      injection hpu with hpu
      subst hpu
      obtain ⟨pv, hpv, hlen⟩ := inv.closed u h pu0 hpu0 r hr
      exact ⟨pv, alookup_append_left hpv, hlen⟩
    · simp only [List.mem_singleton] at h
      subst h
      rw [alookup_append_left hpc] at hpu
      injection hpu with hpu
      subst hpu
      obtain ⟨pv, hpv, hcase⟩ := hall r hr
      refine ⟨pv, hpv, ?_⟩
      rcases hcase with hmem | hlen
      · exact hpc_len ▸ hbound0 (r.ref, pv) hmem
      · rw [hlen]
  -- parentEdge
  · intro e he
    rcases List.mem_append.mp he with h | h
    · rcases inv.parentEdge e h with hnil |
        ⟨u, pu, r, l1, l2, s1, s2, h1, h2, h3, h4, h5, h6, h7⟩
      · exact Or.inl hnil
      · refine Or.inr ⟨u, pu, r, l1, l2, s1, s2 ++ [current],
          alookup_append_left h1, h2, h3, h4, h5, ?_, h7⟩
        rw [h6]
        simp
    · obtain ⟨r, l1, l2, hds, hl1, hre, h3⟩ := hnew_first e h
      refine Or.inr ⟨current, pc, r, l1, l2, bfs_sorted, [],
        alookup_append_left hpc, hds, hl1, hre, h3, rfl, ?_⟩
      intro w hw r2 hr2
      have hwkeys : w ∈ paths.map Prod.fst := by
        rw [inv.keys_eq]
        exact List.mem_append.mpr (Or.inl hw)
      obtain ⟨pw, hpw⟩ := Option.isSome_iff_exists.mp (alookup_isSome_iff.mpr hwkeys)
      obtain ⟨pv2, hpv2, _⟩ := inv.closed w hw pw hpw r2 hr2
      intro hcontra
      have he1 : e.1 ∈ new.map Prod.fst := List.mem_map_of_mem Prod.fst h
      have hnotold := hfresh e.1 he1
      rw [hcontra] at hpv2
      exact hnotold (mem_keys_of_alookup hpv2)

/-- With enough fuel the loop drains the queue and the invariant holds of the
final state. -/
theorem bfsAux_drain (g : GraphCfg) (hwf : WellFormedGraph g) :
    ∀ (fuel : Nat) (queue bfs_sorted : List Nat)
      (paths : List (Nat × List TrackableReference)),
    BfsInv g queue bfs_sorted paths →
    queue.length + (g.numNodes - paths.length) ≤ fuel →
    BfsInv g [] (bfsAux g fuel queue bfs_sorted paths).1
        (bfsAux g fuel queue bfs_sorted paths).2.1
      ∧ (bfsAux g fuel queue bfs_sorted paths).2.2 = [] := by
  intro fuel
  induction fuel with
  | zero =>
    intro queue bfs_sorted paths inv hfuel
    have hq : queue = [] := List.length_eq_zero.mp (by omega)
    subst hq
    exact ⟨inv, rfl⟩
  | succ fuel ih =>
    intro queue bfs_sorted paths inv hfuel
    cases queue with
    | nil => exact ⟨inv, rfl⟩
    | cons current rest =>
      obtain ⟨queue2, paths2, hst⟩ :
          ∃ q2 p2, (g.deps current).foldl
            (discover ((alookup current paths).getD [])) (rest, paths) = (q2, p2) :=
        ⟨_, _, rfl⟩
      obtain ⟨inv2, hlen_eq, hlen_le, hlen_ge⟩ :=
        bfsInv_step g hwf current rest bfs_sorted paths inv queue2 paths2 hst
      have hstep : bfsAux g (fuel + 1) (current :: rest) bfs_sorted paths
          = bfsAux g fuel queue2 (bfs_sorted ++ [current]) paths2 := by
        simp only [bfsAux, hst]
      rw [hstep]
      refine ih queue2 (bfs_sorted ++ [current]) paths2 inv2 ?_
      simp only [List.length_cons] at hfuel
      omega

/-- The breadth-first traversal establishes the invariant with an empty
residual queue. -/
theorem breadth_first_traversal_inv (g : GraphCfg) (hwf : WellFormedGraph g) :
    BfsInv g [] (breadth_first_traversal g).1 (breadth_first_traversal g).2 := by
  have hinit : BfsInv g [g.root] [] [(g.root, [])] := by
    refine ⟨by simp, by simp, ?_, ?_, by simp, ⟨0, [g.root], [], by simp, ?_, by simp, ?_⟩,
      by simp, ?_⟩
    · intro e he
      simp only [List.mem_singleton] at he
      subst he
      exact hwf.1
    · intro e he
      simp only [List.mem_singleton] at he
      subst he
      exact rfl
    · intro q hq pq hpq
      simp only [List.mem_singleton] at hq
      subst hq
      simp only [alookup, if_pos rfl] at hpq
      injection hpq with hpq
      rw [← hpq]
      rfl
    · intro e he
      simp only [List.mem_singleton] at he
      subst he
      simp
    · intro e he
      simp only [List.mem_singleton] at he
      subst he
      exact Or.inl rfl
  have := bfsAux_drain g hwf g.numNodes [g.root] [] [(g.root, [])] hinit
    (by have := hwf.1; simp; omega)
  exact this.1

/-- The final path map's keys are exactly the visitation order. -/
theorem bfs_final_keys (g : GraphCfg) (hwf : WellFormedGraph g) :
    (breadth_first_traversal g).2.map Prod.fst = (breadth_first_traversal g).1 := by
  have h := (breadth_first_traversal_inv g hwf).keys_eq
  simpa using h

/-- Any recorded start point bounds every other path: recorded paths are
shortest. -/
theorem bfs_reach_bound (g : GraphCfg) (hwf : WellFormedGraph g) :
    ∀ (q : List TrackableReference) (u v : Nat) (pu : List TrackableReference),
    alookup u (breadth_first_traversal g).2 = some pu → isPathFrom g u q v →
    ∃ pv, alookup v (breadth_first_traversal g).2 = some pv
      ∧ pv.length ≤ pu.length + q.length := by
  have inv := breadth_first_traversal_inv g hwf
  intro q
  induction q with
  | nil =>
    intro u v pu hpu hq
    cases isPathFrom_nil_eq hq
    exact ⟨pu, hpu, by simp⟩
  | cons r rs ih =>
    intro u v pu hpu hq
    obtain ⟨hr, hrest⟩ := hq
    have humem : u ∈ (breadth_first_traversal g).1 := by
      rw [← bfs_final_keys g hwf]
      exact mem_keys_of_alookup hpu
    obtain ⟨pr, hpr, hprlen⟩ := inv.closed u humem pu hpu r hr
    obtain ⟨pv, hpv, hpvlen⟩ := ih r.ref v pr hpr hrest
    exact ⟨pv, hpv, by simp only [List.length_cons]; omega⟩

/-- The root's recorded path is empty. -/
theorem bfs_root_lookup (g : GraphCfg) (hwf : WellFormedGraph g) :
    alookup g.root (breadth_first_traversal g).2 = some [] := by
  have hd := (breadth_first_traversal_inv g hwf).hd
  cases hpaths : (breadth_first_traversal g).2 with
  | nil => rw [hpaths] at hd; simp at hd
  | cons e t =>
    rw [hpaths] at hd
    simp only [List.head?_cons] at hd
    injection hd with hd
    subst hd
    simp [alookup]

/-! ### Checkpoint-key separation -/

theorem reverse_checkpoint_key (n a : List Char) :
    (checkpoint_key_of n a).reverse
      = (escape_local_name a).reverse
        ++ '/' :: (OBJECT_ATTRIBUTES_NAME.reverse ++ '/' :: n.reverse) := by
  simp [checkpoint_key_of, List.reverse_append]

theorem checkpoint_key_inj {n1 n2 a b : List Char}
    (h : checkpoint_key_of n1 a = checkpoint_key_of n2 b) : n1 = n2 ∧ a = b := by
  have h2 := congrArg List.reverse h
  rw [reverse_checkpoint_key, reverse_checkpoint_key] at h2
  have hsf1 : '/' ∉ (escape_local_name a).reverse := fun hm =>
    slash_not_mem_escape a (List.mem_reverse.mp hm)
  have hsf2 : '/' ∉ (escape_local_name b).reverse := fun hm =>
    slash_not_mem_escape b (List.mem_reverse.mp hm)
  obtain ⟨he, hrest⟩ := slashfree_append_cancel _ _ _ _ hsf1 hsf2 h2
  constructor
  · have h3 := List.append_cancel_left hrest
    injection h3 with _ h4
    exact List.reverse_injective h4
  · exact escape_local_name_inj (List.reverse_injective he)

theorem alookup_object_names (paths : List (Nat × List TrackableReference)) (k : Nat) :
    alookup k (object_names_of paths)
      = (alookup k paths).map object_prefix_from_path := by
  induction paths with
  | nil => rfl
  | cons e l ih =>
    obtain ⟨a, b⟩ := e
    by_cases ha : a = k
    · simp [object_names_of, alookup, ha]
    · simp only [object_names_of, List.map_cons, alookup, if_neg ha]
      simpa [object_names_of] using ih

/-! ### Claim theorems -/

/-- C2: the breadth-first traversal visits the root first and records the
empty path for it; every reachable node (and only those) appears exactly once
in the visitation order, keyed by object identity; the recorded path of every
node is a valid hop-count-minimal path from the root; and ties are broken by
BFS discovery order with the first enumerated edge winning: every non-root
recorded path extends the recorded path of a parent `u` by the first edge of
`u`'s dependency list that references the node (no earlier edge of `u` does),
where `u` is the first-expanded node listing any edge to it (no node expanded
before `u` lists one). -/
theorem C2_breadth_first_traversal_correct (g : GraphCfg) (hwf : WellFormedGraph g) :
    (breadth_first_traversal g).1.head? = some g.root
    ∧ alookup g.root (breadth_first_traversal g).2 = some []
    ∧ (breadth_first_traversal g).1.Nodup
    ∧ (breadth_first_traversal g).2.map Prod.fst = (breadth_first_traversal g).1
    ∧ (∀ v, (∃ q, isPathFrom g g.root q v) ↔ v ∈ (breadth_first_traversal g).1)
    ∧ (∀ v pv, alookup v (breadth_first_traversal g).2 = some pv →
        isPathFrom g g.root pv v
        ∧ (∀ q, isPathFrom g g.root q v → pv.length ≤ q.length)
        ∧ (pv = [] ∨ ∃ u pu r l1 l2 s1 s2,
            alookup u (breadth_first_traversal g).2 = some pu
            ∧ g.deps u = l1 ++ r :: l2
            ∧ (∀ r2 ∈ l1, r2.ref ≠ v)
            ∧ r.ref = v ∧ pv = pu ++ [r]
            ∧ (breadth_first_traversal g).1 = s1 ++ u :: s2
            ∧ ∀ w ∈ s1, ∀ r2 ∈ g.deps w, r2.ref ≠ v)) := by
  have inv := breadth_first_traversal_inv g hwf
  have hkeys := bfs_final_keys g hwf
  have hroot := bfs_root_lookup g hwf
  refine ⟨?_, hroot, ?_, hkeys, ?_, ?_⟩
  · rw [← hkeys]
    cases hpaths : (breadth_first_traversal g).2 with
    | nil =>
      have := inv.hd
      rw [hpaths] at this
      simp at this
    | cons e t =>
      have := inv.hd
      rw [hpaths] at this
      simp only [List.head?_cons] at this
      injection this with h
      subst h
      simp
  · rw [← hkeys]
    exact inv.nodup
  · intro v
    constructor
    · rintro ⟨q, hq⟩
      obtain ⟨pv, hpv, _⟩ := bfs_reach_bound g hwf q g.root v [] hroot hq
      rw [← hkeys]
      exact mem_keys_of_alookup hpv
    · intro hv
      rw [← hkeys] at hv
      rcases List.mem_map.mp hv with ⟨e, he, rfl⟩
      exact ⟨e.2, inv.valid e he⟩
  · intro v pv hpv
    refine ⟨inv.valid (v, pv) (alookup_mem hpv), ?_, ?_⟩
    · intro q hq
      obtain ⟨pv2, hpv2, hlen⟩ := bfs_reach_bound g hwf q g.root v [] hroot hq
      rw [hpv] at hpv2
      injection hpv2 with hpv2
      subst hpv2
      simpa using hlen
    · exact inv.parentEdge (v, pv) (alookup_mem hpv)

/-- C2 witness: the traversal theorem applied to a concrete graph with a tie
(the root lists node 1 under `a` and again under `b`); the recorded path
concretely uses the first enumerated edge `a`. -/
theorem C2_breadth_first_traversal_correct_witness :
    WellFormedGraph tieCfg
    ∧ ((breadth_first_traversal tieCfg).1.head? = some tieCfg.root
      ∧ alookup tieCfg.root (breadth_first_traversal tieCfg).2 = some []
      ∧ (breadth_first_traversal tieCfg).1.Nodup
      ∧ (breadth_first_traversal tieCfg).2.map Prod.fst
          = (breadth_first_traversal tieCfg).1
      ∧ (∀ v, (∃ q, isPathFrom tieCfg tieCfg.root q v)
          ↔ v ∈ (breadth_first_traversal tieCfg).1)
      ∧ (∀ v pv, alookup v (breadth_first_traversal tieCfg).2 = some pv →
          isPathFrom tieCfg tieCfg.root pv v
          ∧ (∀ q, isPathFrom tieCfg tieCfg.root q v → pv.length ≤ q.length)
          ∧ (pv = [] ∨ ∃ u pu r l1 l2 s1 s2,
              alookup u (breadth_first_traversal tieCfg).2 = some pu
              ∧ tieCfg.deps u = l1 ++ r :: l2
              ∧ (∀ r2 ∈ l1, r2.ref ≠ v)
              ∧ r.ref = v ∧ pv = pu ++ [r]
              ∧ (breadth_first_traversal tieCfg).1 = s1 ++ u :: s2
              ∧ ∀ w ∈ s1, ∀ r2 ∈ tieCfg.deps w, r2.ref ≠ v)))
    ∧ alookup 1 (breadth_first_traversal tieCfg).2
        = some [TrackableReference.mk ['a'] 1] :=
  ⟨by decide, C2_breadth_first_traversal_correct tieCfg (by decide), by decide⟩

/-- C1 counterexample: in `collideCfg` the root lists two distinct children
(nodes 1 and 2) under the same local name `a`; both are traversed and both are
assigned the same checkpoint name `"a"`, so the naming is not collision-free
for distinct objects. -/
theorem C1_counterexample :
    1 ∈ (breadth_first_traversal collideCfg).1
    ∧ 2 ∈ (breadth_first_traversal collideCfg).1
    ∧ (1 : Nat) ≠ 2
    ∧ alookup 1 (object_names_of (breadth_first_traversal collideCfg).2) = some ['a']
    ∧ alookup 2 (object_names_of (breadth_first_traversal collideCfg).2) = some ['a'] := by
  decide

/-- C1 (amended): the traversal naming assigns distinct checkpoint names to
any two traversed nodes whose canonical paths carry different local-name
sequences, provided both are non-root (nonempty paths); and attribute
checkpoint keys then differ for any attribute pair, as they also do for equal
names with distinct attribute names. Two children reached under identical
local-name sequences (for example two children of one parent under one local
name) receive the same name, so the original claim fails. -/
theorem C1_amended_distinct_names (g : GraphCfg) (u v : Nat)
    (pu pv : List TrackableReference)
    (hu : alookup u (breadth_first_traversal g).2 = some pu)
    (hv : alookup v (breadth_first_traversal g).2 = some pv)
    (hnames : pu.map TrackableReference.name ≠ pv.map TrackableReference.name)
    (hpu : pu ≠ []) (hpv : pv ≠ []) :
    alookup u (object_names_of (breadth_first_traversal g).2)
      = some (object_prefix_from_path pu)
    ∧ alookup v (object_names_of (breadth_first_traversal g).2)
      = some (object_prefix_from_path pv)
    ∧ object_prefix_from_path pu ≠ object_prefix_from_path pv
    ∧ (∀ a b : List Char,
        checkpoint_key_of (object_prefix_from_path pu) a
          ≠ checkpoint_key_of (object_prefix_from_path pv) b)
    ∧ (∀ nm a b : List Char, a ≠ b → checkpoint_key_of nm a ≠ checkpoint_key_of nm b) := by
  have hne := object_prefix_inj pu pv hnames hpu hpv
  refine ⟨?_, ?_, hne, ?_, ?_⟩
  · rw [alookup_object_names, hu]; rfl
  · rw [alookup_object_names, hv]; rfl
  · intro a b hk
    exact hne (checkpoint_key_inj hk).1
  · intro nm a b hab hk
    exact hab (checkpoint_key_inj hk).2

/-- C1 witness: the amended statement applied to two concretely traversed
nodes of a three-node graph. -/
theorem C1_amended_distinct_names_witness :
    (alookup 1 (breadth_first_traversal exampleCfg2).2
        = some [TrackableReference.mk ['a'] 1]
      ∧ alookup 2 (breadth_first_traversal exampleCfg2).2
        = some [TrackableReference.mk ['b'] 2]
      ∧ [TrackableReference.mk ['a'] 1].map TrackableReference.name
        ≠ [TrackableReference.mk ['b'] 2].map TrackableReference.name
      ∧ [TrackableReference.mk ['a'] 1] ≠ ([] : List TrackableReference)
      ∧ [TrackableReference.mk ['b'] 2] ≠ ([] : List TrackableReference))
    ∧ (alookup 1 (object_names_of (breadth_first_traversal exampleCfg2).2)
        = some (object_prefix_from_path [TrackableReference.mk ['a'] 1])
      ∧ alookup 2 (object_names_of (breadth_first_traversal exampleCfg2).2)
        = some (object_prefix_from_path [TrackableReference.mk ['b'] 2])
      ∧ object_prefix_from_path [TrackableReference.mk ['a'] 1]
        ≠ object_prefix_from_path [TrackableReference.mk ['b'] 2]
      ∧ (∀ a b : List Char,
          checkpoint_key_of (object_prefix_from_path [TrackableReference.mk ['a'] 1]) a
            ≠ checkpoint_key_of (object_prefix_from_path [TrackableReference.mk ['b'] 2]) b)
      ∧ (∀ nm a b : List Char, a ≠ b →
          checkpoint_key_of nm a ≠ checkpoint_key_of nm b)) :=
  ⟨⟨by decide, by decide, by decide, by decide, by decide⟩,
    C1_amended_distinct_names exampleCfg2 1 2 _ _ (by decide) (by decide) (by decide)
      (by decide) (by decide)⟩

/-- C4: for a variable at checkpoint name `p`, an optimizer at checkpoint name
`q` and slot name `s`, the slot variable's checkpoint name is exactly
`p + "/.OPTIMIZER_SLOT/" + q + "/" + escape(s)`; `q` enters verbatim and only
`s` is escaped. -/
theorem C4_slot_variable_name (variable_path optimizer_path slot_name : List Char) :
    name_slot_variable optimizer_path variable_path slot_name
      = variable_path ++ "/.OPTIMIZER_SLOT/".toList ++ optimizer_path
        ++ "/".toList ++ escape_local_name slot_name := by
  have h1 : "/.OPTIMIZER_SLOT/".toList = ('/' :: OPTIMIZER_SLOTS_NAME) ++ ['/'] := by
    decide
  have h2 : "/".toList = ['/'] := by decide
  rw [h1, h2]
  simp [name_slot_variable, optimizer_identifier]

/-- C5 counterexample: the empty local-name sequence (the root) and the
single-element sequence holding one empty local name are distinct, yet both
produce the empty escaped prefix, so the joined escaping is not injective on
all sequences of local names. -/
theorem C5_counterexample :
    object_prefix_from_path [] = object_prefix_from_path [TrackableReference.mk [] 5]
    ∧ List.map TrackableReference.name ([] : List TrackableReference)
      ≠ List.map TrackableReference.name [TrackableReference.mk [] 5] := by
  decide

/-- C5 (amended): restricted to nonempty sequences of local names, the
segment-wise escaping joined with `/` is injective: distinct local-name
sequences yield distinct escaped prefixes; moreover an escaped local name
never contains the path separator `/`, so a local name containing `/` or `.`
cannot disturb path segmentation. The empty sequence (whose prefix is empty)
collides with the single empty local name, so the original unrestricted claim
fails. -/
theorem C5_escaping_injective (p q : List TrackableReference)
    (hnames : p.map TrackableReference.name ≠ q.map TrackableReference.name)
    (hp : p ≠ []) (hq : q ≠ []) :
    object_prefix_from_path p ≠ object_prefix_from_path q
    ∧ ∀ s : List Char, '/' ∉ escape_local_name s :=
  ⟨object_prefix_inj p q hnames hp hq, fun s => slash_not_mem_escape s⟩

/-- C5 witness: the amended statement applied to two concrete one-edge
sequences. -/
theorem C5_escaping_injective_witness :
    ([TrackableReference.mk ['a'] 1].map TrackableReference.name
        ≠ [TrackableReference.mk ['b'] 2].map TrackableReference.name
      ∧ [TrackableReference.mk ['a'] 1] ≠ ([] : List TrackableReference)
      ∧ [TrackableReference.mk ['b'] 2] ≠ ([] : List TrackableReference))
    ∧ (object_prefix_from_path [TrackableReference.mk ['a'] 1]
        ≠ object_prefix_from_path [TrackableReference.mk ['b'] 2]
      ∧ ∀ s : List Char, '/' ∉ escape_local_name s) :=
  ⟨⟨by decide, by decide, by decide⟩,
    C5_escaping_injective [TrackableReference.mk ['a'] 1] [TrackableReference.mk ['b'] 2]
      (by decide) (by decide) (by decide)⟩

/-! ### Slot-variable resolution lemmas -/

theorem process_originals_congr (cfg cfg2 : TrackingCfg)
    (hdeps : cfg2.deps = cfg.deps)
    (hgs : ∀ t o s, handled_get_slot (cfg2.getSlot t o s)
      = handled_get_slot (cfg.getSlot t o s))
    (t : Nat) (op sn : List Char) :
    ∀ (l : List (Nat × Nat)) (st : SlotSt),
    process_originals cfg2 t op sn l st = process_originals cfg t op sn l st := by
  intro l
  induction l with
  | nil => intro st; rfl
  | cons p rest ih =>
    obtain ⟨oid, ov⟩ := p
    intro st
    simp only [process_originals, hgs t ov sn, hdeps]
    cases handled_get_slot (cfg.getSlot t ov sn) with
    | error e => rfl
    | ok v =>
      cases v with
      | none => exact ih st
      | some sv =>
        by_cases hdep : cfg.deps sv = []
        · simp only [hdep, ne_eq, not_true_eq_false, if_false, reduceIte]
          by_cases halias : (alookup sv st.node_ids).isSome
          · simp [halias]
          · simp only [halias, if_false, Bool.false_eq_true, reduceIte]
            exact ih _
        · simp [hdep]

theorem process_slot_names_congr (cfg cfg2 : TrackingCfg)
    (hdeps : cfg2.deps = cfg.deps)
    (hgs : ∀ t o s, handled_get_slot (cfg2.getSlot t o s)
      = handled_get_slot (cfg.getSlot t o s))
    (t : Nat) (op : List Char) (ns : List (Nat × Nat)) :
    ∀ (l : List (List Char)) (st : SlotSt),
    process_slot_names cfg2 t op ns l st = process_slot_names cfg t op ns l st := by
  intro l
  induction l with
  | nil => intro st; rfl
  | cons sn rest ih =>
    intro st
    simp only [process_slot_names, process_originals_congr cfg cfg2 hdeps hgs t op sn ns st]
    cases process_originals cfg t op sn ns st with
    | error e => rfl
    | ok st2 => exact ih st2

theorem process_trackables_congr (cfg cfg2 : TrackingCfg)
    (hdeps : cfg2.deps = cfg.deps)
    (hopt : cfg2.isOptimizer = cfg.isOptimizer)
    (hsn : cfg2.slotNames = cfg.slotNames)
    (hgs : ∀ t o s, handled_get_slot (cfg2.getSlot t o s)
      = handled_get_slot (cfg.getSlot t o s))
    (ns : List (Nat × Nat)) :
    ∀ (l : List Nat) (st : SlotSt),
    process_trackables cfg2 ns l st = process_trackables cfg ns l st := by
  intro l
  induction l with
  | nil => intro st; rfl
  | cons t rest ih =>
    intro st
    simp only [process_trackables, hopt, hsn]
    by_cases ho : cfg.isOptimizer t
    · simp only [ho, if_true, reduceIte,
        process_slot_names_congr cfg cfg2 hdeps hgs t _ ns]
      cases process_slot_names cfg t ((alookup t st.object_names).getD []) ns
        (cfg.slotNames t) st with
      | error e => rfl
      | ok st2 => exact ih st2
    · simp only [ho, if_false, Bool.false_eq_true, reduceIte]
      exact ih st

/-- Appended slot variables passed both checks: they have no dependencies and
were absent from `node_ids` at append time. -/
theorem process_originals_extends (cfg : TrackingCfg) (t : Nat) (op sn : List Char) :
    ∀ (l : List (Nat × Nat)) (st st' : SlotSt),
    process_originals cfg t op sn l st = .ok st' →
    ∃ extO extN,
      st'.trackable_objects = st.trackable_objects ++ extO
      ∧ st'.node_ids = st.node_ids ++ extN
      ∧ ∀ v ∈ extO, cfg.deps v = [] ∧ alookup v st.node_ids = none := by
  intro l
  induction l with
  | nil =>
    intro st st' h
    simp only [process_originals] at h
    injection h with h
    subst h
    exact ⟨[], [], by simp, by simp, by simp⟩
  | cons p rest ih =>
    obtain ⟨oid, ov⟩ := p
    intro st st' h
    simp only [process_originals] at h
    cases hgs : handled_get_slot (cfg.getSlot t ov sn) with
    | error e => rw [hgs] at h; exact absurd h (by simp)
    | ok v =>
      rw [hgs] at h
      cases v with
      | none => exact ih st st' h
      | some sv =>
        by_cases hdep : cfg.deps sv = []
        · simp only [hdep, ne_eq, not_true_eq_false, if_false, reduceIte] at h
          by_cases halias : (alookup sv st.node_ids).isSome
          · rw [if_pos halias] at h; exact absurd h (by simp)
          · rw [if_neg halias] at h
            obtain ⟨extO, extN, h1, h2, h3⟩ := ih _ st' h
            refine ⟨sv :: extO, (sv, st.trackable_objects.length) :: extN, ?_, ?_, ?_⟩
            · simpa using h1
            · simpa using h2
            · intro v hv
              rcases List.mem_cons.mp hv with rfl | hv2
              · exact ⟨hdep, Option.not_isSome_iff_eq_none.mp halias⟩
              · obtain ⟨hd2, hn2⟩ := h3 v hv2
                simp only [SlotSt.node_ids] at hn2
                exact ⟨hd2, (alookup_append_none hn2).1⟩
        · simp only [ne_eq, hdep, not_false_eq_true, if_true, reduceIte] at h
          exact absurd h (by simp)

theorem process_slot_names_extends (cfg : TrackingCfg) (t : Nat) (op : List Char)
    (ns : List (Nat × Nat)) :
    ∀ (l : List (List Char)) (st st' : SlotSt),
    process_slot_names cfg t op ns l st = .ok st' →
    ∃ extO extN,
      st'.trackable_objects = st.trackable_objects ++ extO
      ∧ st'.node_ids = st.node_ids ++ extN
      ∧ ∀ v ∈ extO, cfg.deps v = [] ∧ alookup v st.node_ids = none := by
  intro l
  induction l with
  | nil =>
    intro st st' h
    simp only [process_slot_names] at h
    injection h with h
    subst h
    exact ⟨[], [], by simp, by simp, by simp⟩
  | cons sn rest ih =>
    intro st st' h
    simp only [process_slot_names] at h
    cases hstep : process_originals cfg t op sn ns st with
    | error e => rw [hstep] at h; exact absurd h (by simp)
    | ok st2 =>
      rw [hstep] at h
      obtain ⟨e1, n1, h1, h2, h3⟩ := process_originals_extends cfg t op sn ns st st2 hstep
      obtain ⟨e2, n2, h4, h5, h6⟩ := ih st2 st' h
      refine ⟨e1 ++ e2, n1 ++ n2, by rw [h4, h1, List.append_assoc],
        by rw [h5, h2, List.append_assoc], ?_⟩
      intro v hv
      rcases List.mem_append.mp hv with hv1 | hv2
      · exact h3 v hv1
      · obtain ⟨hd2, hn2⟩ := h6 v hv2
        rw [h2] at hn2
        exact ⟨hd2, (alookup_append_none hn2).1⟩

theorem process_trackables_extends (cfg : TrackingCfg) (ns : List (Nat × Nat)) :
    ∀ (l : List Nat) (st st' : SlotSt),
    process_trackables cfg ns l st = .ok st' →
    ∃ extO extN,
      st'.trackable_objects = st.trackable_objects ++ extO
      ∧ st'.node_ids = st.node_ids ++ extN
      ∧ ∀ v ∈ extO, cfg.deps v = [] ∧ alookup v st.node_ids = none := by
  intro l
  induction l with
  | nil =>
    intro st st' h
    simp only [process_trackables] at h
    injection h with h
    subst h
    exact ⟨[], [], by simp, by simp, by simp⟩
  | cons t rest ih =>
    intro st st' h
    simp only [process_trackables] at h
    by_cases ho : cfg.isOptimizer t
    · rw [if_pos ho] at h
      cases hstep : process_slot_names cfg t ((alookup t st.object_names).getD []) ns
        (cfg.slotNames t) st with
      | error e => rw [hstep] at h; exact absurd h (by simp)
      | ok st2 =>
        rw [hstep] at h
        obtain ⟨e1, n1, h1, h2, h3⟩ := process_slot_names_extends cfg t _ ns _ st st2 hstep
        obtain ⟨e2, n2, h4, h5, h6⟩ := ih st2 st' h
        refine ⟨e1 ++ e2, n1 ++ n2, by rw [h4, h1, List.append_assoc],
          by rw [h5, h2, List.append_assoc], ?_⟩
        intro v hv
        rcases List.mem_append.mp hv with hv1 | hv2
        · exact h3 v hv1
        · obtain ⟨hd2, hn2⟩ := h6 v hv2
          rw [h2] at hn2
          exact ⟨hd2, (alookup_append_none hn2).1⟩
    · rw [if_neg ho] at h
      exact ih st st' h

/-! ### Claim theorems (continued) -/

/-- C6: if `get_slot` yields a slot variable that has dependencies of its own,
slot resolution fails fatally with the unsupported-dependency error; if it
yields one that is already a registered node, it fails fatally with the
aliasing error; and whenever `_serialize_slot_variables` succeeds, every node
it added had no dependencies and was not previously registered (so a rejected
slot variable is never added). -/
theorem C6_slot_variable_rejection :
    (∀ (cfg : TrackingCfg) (t : Nat) (op sn : List Char) (oid ov : Nat)
      (rest : List (Nat × Nat)) (st : SlotSt) (sv : Nat),
      handled_get_slot (cfg.getSlot t ov sn) = .ok (some sv) →
      cfg.deps sv ≠ [] →
      process_originals cfg t op sn ((oid, ov) :: rest) st
        = .error .unsupportedSlotDependency)
    ∧ (∀ (cfg : TrackingCfg) (t : Nat) (op sn : List Char) (oid ov : Nat)
      (rest : List (Nat × Nat)) (st : SlotSt) (sv : Nat),
      handled_get_slot (cfg.getSlot t ov sn) = .ok (some sv) →
      cfg.deps sv = [] →
      (alookup sv st.node_ids).isSome →
      process_originals cfg t op sn ((oid, ov) :: rest) st
        = .error .illegalSlotAliasing)
    ∧ (∀ (cfg : TrackingCfg) (objs : List Nat) (nids : List (Nat × Nat))
      (onames : List (Nat × List Char)) (st' : SlotSt),
      serialize_slot_variables cfg objs nids onames = .ok st' →
      ∀ v ∈ st'.trackable_objects, v ∉ objs →
        cfg.deps v = [] ∧ alookup v nids = none) := by
  refine ⟨?_, ?_, ?_⟩
  · intro cfg t op sn oid ov rest st sv hgs hdep
    simp [process_originals, hgs, hdep]
  · intro cfg t op sn oid ov rest st sv hgs hdep halias
    simp [process_originals, hgs, hdep, halias]
  · intro cfg objs nids onames st' h hv hmem hnotin
    obtain ⟨extO, extN, h1, _, h3⟩ :=
      process_trackables_extends cfg objs.enum objs ⟨objs, nids, onames, []⟩ st' h
    rw [h1] at hmem
    rcases List.mem_append.mp hmem with hin | hext
    · exact absurd hin hnotin
    · exact h3 hv hext

/-- C6 witness: both rejections fire on concrete configurations, and a
successful resolution only adds clean slot variables. -/
theorem C6_slot_variable_rejection_witness :
    (handled_get_slot (slotCfgBad.getSlot 0 1 ['m']) = .ok (some 9)
      ∧ slotCfgBad.deps 9 ≠ []
      ∧ process_originals slotCfgBad 0 [] ['m'] [(1, 1)] slotStEx
          = .error .unsupportedSlotDependency)
    ∧ (handled_get_slot (slotCfgAlias.getSlot 0 1 ['m']) = .ok (some 1)
      ∧ slotCfgAlias.deps 1 = []
      ∧ (alookup 1 slotStEx.node_ids).isSome
      ∧ process_originals slotCfgAlias 0 [] ['m'] [(1, 1)] slotStEx
          = .error .illegalSlotAliasing)
    ∧ (serialize_slot_variables trackCfgEx [0, 1] [(0, 0), (1, 1)]
          [(0, []), (1, ['a'])] = .ok slotStGood
      ∧ ∀ v ∈ slotStGood.trackable_objects, v ∉ [0, 1] →
          trackCfgEx.deps v = [] ∧ alookup v [(0, 0), (1, 1)] = none) :=
  ⟨⟨by decide, by decide,
      C6_slot_variable_rejection.1 slotCfgBad 0 [] ['m'] 1 1 [] slotStEx 9
        (by decide) (by decide)⟩,
    ⟨by decide, by decide, by decide,
      C6_slot_variable_rejection.2.1 slotCfgAlias 0 [] ['m'] 1 1 [] slotStEx 1
        (by decide) (by decide) (by decide)⟩,
    ⟨by decide,
      C6_slot_variable_rejection.2.2 trackCfgEx [0, 1] [(0, 0), (1, 1)]
        [(0, []), (1, ['a'])] slotStGood (by decide)⟩⟩

/-- C10: `AttributeError` and `KeyError` raised by `get_slot` are swallowed
(treated as "no slot variable for this pair") and resolution continues: runs
whose `get_slot` capabilities agree after this handling are identical, and the
two handled exceptions behave exactly like a `None` result; any other
exception propagates and aborts resolution. -/
theorem C10_get_slot_exception_handling :
    handled_get_slot (Except.error PyErr.attributeError) = Except.ok none
    ∧ handled_get_slot (Except.error PyErr.keyError) = Except.ok none
    ∧ (∀ e : PyErr, e ≠ PyErr.attributeError → e ≠ PyErr.keyError →
        handled_get_slot (Except.error e) = Except.error e)
    ∧ (∀ cfg cfg2 : TrackingCfg,
        cfg2.deps = cfg.deps → cfg2.isOptimizer = cfg.isOptimizer →
        cfg2.slotNames = cfg.slotNames →
        (∀ t o s, handled_get_slot (cfg2.getSlot t o s)
          = handled_get_slot (cfg.getSlot t o s)) →
        ∀ objs nids onames,
          serialize_slot_variables cfg2 objs nids onames
            = serialize_slot_variables cfg objs nids onames)
    ∧ (∀ (cfg : TrackingCfg) (t : Nat) (op sn : List Char) (oid ov : Nat)
        (rest : List (Nat × Nat)) (st : SlotSt),
        cfg.getSlot t ov sn = Except.error PyErr.otherError →
        process_originals cfg t op sn ((oid, ov) :: rest) st
          = Except.error PyErr.otherError) := by
  refine ⟨rfl, rfl, ?_, ?_, ?_⟩
  · intro e h1 h2
    simp [handled_get_slot, h1, h2]
  · intro cfg cfg2 hdeps hopt hsn hgs objs nids onames
    simp only [serialize_slot_variables]
    exact process_trackables_congr cfg cfg2 hdeps hopt hsn hgs objs.enum objs _
  · intro cfg t op sn oid ov rest st hgs
    simp [process_originals, hgs, handled_get_slot]

/-- C10 witness: a configuration always raising `AttributeError` resolves
exactly like one always returning `None`, and an unhandled exception
propagates on a concrete input. -/
theorem C10_get_slot_exception_handling_witness :
    (trackCfgNone.deps = trackCfgRaise.deps
      ∧ trackCfgNone.isOptimizer = trackCfgRaise.isOptimizer
      ∧ trackCfgNone.slotNames = trackCfgRaise.slotNames)
    ∧ serialize_slot_variables trackCfgNone [0, 1] [(0, 0), (1, 1)]
        [(0, []), (1, ['a'])]
      = serialize_slot_variables trackCfgRaise [0, 1] [(0, 0), (1, 1)]
        [(0, []), (1, ['a'])]
    ∧ trackCfgOther.getSlot 0 1 ['m'] = Except.error PyErr.otherError
    ∧ process_originals trackCfgOther 0 [] ['m'] [(1, 1)] slotStEx
        = Except.error PyErr.otherError :=
  ⟨⟨rfl, rfl, rfl⟩,
    C10_get_slot_exception_handling.2.2.2.1 trackCfgRaise trackCfgNone rfl rfl rfl
      (fun _ _ _ => rfl) [0, 1] [(0, 0), (1, 1)] [(0, []), (1, ['a'])],
    rfl,
    C10_get_slot_exception_handling.2.2.2.2 trackCfgOther 0 [] ['m'] 1 1 [] slotStEx rfl⟩

/-! ### Dense node ids -/

theorem alookup_enumFrom_swap (l : List Nat) :
    ∀ (n : Nat), l.Nodup → ∀ i (h : i < l.length),
    alookup (l.get ⟨i, h⟩) ((l.enumFrom n).map fun p => (p.2, p.1)) = some (n + i) := by
  induction l with
  | nil => intro n _ i h; exact absurd h (by simp)
  | cons a l ih =>
    intro n hnd i h
    simp only [List.nodup_cons] at hnd
    cases i with
    | zero => simp [List.enumFrom, alookup]
    | succ j =>
      have hj : j < l.length := by simpa using Nat.lt_of_succ_lt_succ h
      have hget : (a :: l).get ⟨j + 1, h⟩ = l.get ⟨j, hj⟩ := rfl
      have hne : ¬ a = l.get ⟨j, hj⟩ := fun hc => hnd.1 (hc ▸ l.get_mem _ _)
      rw [hget]
      simp only [List.enumFrom, List.map_cons, alookup, if_neg hne]
      have := ih (n + 1) hnd.2 j hj
      rw [this]
      congr 1
      omega

theorem alookup_node_ids_of (l : List Nat) (hnd : l.Nodup) (i : Nat)
    (h : i < l.length) : alookup (l.get ⟨i, h⟩) (node_ids_of l) = some i := by
  have := alookup_enumFrom_swap l 0 hnd i h
  simpa [node_ids_of, List.enum] using this

theorem node_ids_of_snd (l : List Nat) :
    (node_ids_of l).map Prod.snd = List.range l.length := by
  simp only [node_ids_of, List.map_map]
  have : (Prod.snd ∘ fun p : Nat × Nat => (p.2, p.1)) = Prod.fst := rfl
  rw [this, List.enum_map_fst]

/-- Appending one fresh slot variable with the next id preserves the dense-ids
property. -/
theorem ids_ok_append (objs : List Nat) (nids : List (Nat × Nat)) (sv : Nat)
    (hrange : nids.map Prod.snd = List.range objs.length)
    (hids : ∀ i (h : i < objs.length), alookup (objs.get ⟨i, h⟩) nids = some i)
    (halias : alookup sv nids = none) :
    ((nids ++ [(sv, objs.length)]).map Prod.snd = List.range (objs ++ [sv]).length)
    ∧ ∀ i (h : i < (objs ++ [sv]).length),
        alookup ((objs ++ [sv]).get ⟨i, h⟩) (nids ++ [(sv, objs.length)]) = some i := by
  constructor
  · simp [hrange, List.range_succ]
  · intro i h
    have hlen : i < objs.length + 1 := by simpa using h
    by_cases hi : i < objs.length
    · have hget : (objs ++ [sv]).get ⟨i, h⟩ = objs.get ⟨i, hi⟩ := by
        simp only [List.get_eq_getElem]
        exact List.getElem_append_left hi
      rw [hget]
      exact alookup_append_left (hids i hi)
    · have hieq : i = objs.length := by omega
      subst hieq
      have hget : (objs ++ [sv]).get ⟨objs.length, h⟩ = sv := by
        simp [List.get_eq_getElem]
      rw [hget, alookup_append_right _ halias]
      simp [alookup]

theorem process_originals_ids (cfg : TrackingCfg) (t : Nat) (op sn : List Char) :
    ∀ (l : List (Nat × Nat)) (st st' : SlotSt),
    process_originals cfg t op sn l st = .ok st' →
    st.node_ids.map Prod.snd = List.range st.trackable_objects.length →
    (∀ i (h : i < st.trackable_objects.length),
      alookup (st.trackable_objects.get ⟨i, h⟩) st.node_ids = some i) →
    st'.node_ids.map Prod.snd = List.range st'.trackable_objects.length
    ∧ ∀ i (h : i < st'.trackable_objects.length),
        alookup (st'.trackable_objects.get ⟨i, h⟩) st'.node_ids = some i := by
  intro l
  induction l with
  | nil =>
    intro st st' h hrange hids
    simp only [process_originals] at h
    injection h with h
    subst h
    exact ⟨hrange, hids⟩
  | cons p rest ih =>
    obtain ⟨oid, ov⟩ := p
    intro st st' h hrange hids
    simp only [process_originals] at h
    cases hgs : handled_get_slot (cfg.getSlot t ov sn) with
    | error e => rw [hgs] at h; exact absurd h (by simp)
    | ok v =>
      rw [hgs] at h
      cases v with
      | none => exact ih st st' h hrange hids
      | some sv =>
        by_cases hdep : cfg.deps sv = []
        · simp only [hdep, ne_eq, not_true_eq_false, if_false, reduceIte] at h
          by_cases halias : (alookup sv st.node_ids).isSome
          · rw [if_pos halias] at h; exact absurd h (by simp)
          · rw [if_neg halias] at h
            obtain ⟨h1, h2⟩ := ids_ok_append st.trackable_objects st.node_ids sv
              hrange hids (Option.not_isSome_iff_eq_none.mp halias)
            exact ih _ st' h h1 h2
        · simp only [ne_eq, hdep, not_false_eq_true, if_true, reduceIte] at h
          exact absurd h (by simp)

theorem process_slot_names_ids (cfg : TrackingCfg) (t : Nat) (op : List Char)
    (ns : List (Nat × Nat)) :
    ∀ (l : List (List Char)) (st st' : SlotSt),
    process_slot_names cfg t op ns l st = .ok st' →
    st.node_ids.map Prod.snd = List.range st.trackable_objects.length →
    (∀ i (h : i < st.trackable_objects.length),
      alookup (st.trackable_objects.get ⟨i, h⟩) st.node_ids = some i) →
    st'.node_ids.map Prod.snd = List.range st'.trackable_objects.length
    ∧ ∀ i (h : i < st'.trackable_objects.length),
        alookup (st'.trackable_objects.get ⟨i, h⟩) st'.node_ids = some i := by
  intro l
  induction l with
  | nil =>
    intro st st' h hrange hids
    simp only [process_slot_names] at h
    injection h with h
    subst h
    exact ⟨hrange, hids⟩
  | cons sn rest ih =>
    intro st st' h hrange hids
    simp only [process_slot_names] at h
    cases hstep : process_originals cfg t op sn ns st with
    | error e => rw [hstep] at h; exact absurd h (by simp)
    | ok st2 =>
      rw [hstep] at h
      obtain ⟨h1, h2⟩ := process_originals_ids cfg t op sn ns st st2 hstep hrange hids
      exact ih st2 st' h h1 h2

theorem process_trackables_ids (cfg : TrackingCfg) (ns : List (Nat × Nat)) :
    ∀ (l : List Nat) (st st' : SlotSt),
    process_trackables cfg ns l st = .ok st' →
    st.node_ids.map Prod.snd = List.range st.trackable_objects.length →
    (∀ i (h : i < st.trackable_objects.length),
      alookup (st.trackable_objects.get ⟨i, h⟩) st.node_ids = some i) →
    st'.node_ids.map Prod.snd = List.range st'.trackable_objects.length
    ∧ ∀ i (h : i < st'.trackable_objects.length),
        alookup (st'.trackable_objects.get ⟨i, h⟩) st'.node_ids = some i := by
  intro l
  induction l with
  | nil =>
    intro st st' h hrange hids
    simp only [process_trackables] at h
    injection h with h
    subst h
    exact ⟨hrange, hids⟩
  | cons t rest ih =>
    intro st st' h hrange hids
    simp only [process_trackables] at h
    by_cases ho : cfg.isOptimizer t
    · rw [if_pos ho] at h
      cases hstep : process_slot_names cfg t ((alookup t st.object_names).getD []) ns
        (cfg.slotNames t) st with
      | error e => rw [hstep] at h; exact absurd h (by simp)
      | ok st2 =>
        rw [hstep] at h
        obtain ⟨h1, h2⟩ := process_slot_names_ids cfg t _ ns _ st st2 hstep hrange hids
        exact ih st2 st' h h1 h2
    · rw [if_neg ho] at h
      exact ih st st' h hrange hids

/-- The graph-record builder succeeds whenever every node's id equals its
position. -/
theorem fill_aux_ok (cfg : TrackingCfg) (nids : List (Nat × Nat))
    (svs : List (Nat × List SlotVariableReference)) :
    ∀ (l : List Nat) (n : Nat),
    (∀ i (h : i < l.length), alookup (l.get ⟨i, h⟩) nids = some (n + i)) →
    ∃ ps, fill_object_graph_aux cfg nids svs (l.enumFrom n) = .ok ps := by
  intro l
  induction l with
  | nil => intro n _; exact ⟨[], rfl⟩
  | cons a l ih =>
    intro n hl
    have h0 : alookup a nids = some n := by
      have := hl 0 (by simp)
      simpa using this
    simp only [List.enumFrom, fill_object_graph_aux]
    rw [if_pos h0]
    obtain ⟨ps, hps⟩ := ih (n + 1) (fun i h => by
      have := hl (i + 1) (by simpa using Nat.succ_lt_succ h)
      have hget : (a :: l).get ⟨i + 1, by simpa using Nat.succ_lt_succ h⟩
          = l.get ⟨i, h⟩ := rfl
      rw [hget] at this
      rw [this]
      congr 1
      omega)
    rw [hps]
    exact ⟨_, rfl⟩

/-- C3: whenever `objects_ids_and_slot_variables_and_paths` succeeds, each
node's id equals its index in the final node list (slot variables having been
appended with the next sequential id after the densely numbered traversal
order), the ids are exactly `0..N-1`, and the graph-record builder's fatal
position check passes. -/
theorem C3_node_ids_dense (cfg : TrackingCfg) (hwf : WellFormedGraph cfg.toGraphCfg)
    (r : ObjectsIdsResult)
    (h : objects_ids_and_slot_variables_and_paths cfg = .ok r) :
    (∀ i (hi : i < r.trackable_objects.length),
      alookup (r.trackable_objects.get ⟨i, hi⟩) r.node_ids = some i)
    ∧ r.node_ids.map Prod.snd = List.range r.trackable_objects.length
    ∧ (∃ protos, fill_object_graph_proto cfg r.trackable_objects r.node_ids
        r.slot_variables = .ok protos)
    ∧ ∃ ext, r.trackable_objects = (breadth_first_traversal cfg.toGraphCfg).1 ++ ext := by
  simp only [objects_ids_and_slot_variables_and_paths] at h
  cases hser : serialize_slot_variables cfg (breadth_first_traversal cfg.toGraphCfg).1
      (node_ids_of (breadth_first_traversal cfg.toGraphCfg).1)
      (object_names_of (breadth_first_traversal cfg.toGraphCfg).2) with
  | error e => rw [hser] at h; exact absurd h (by simp)
  | ok st =>
    rw [hser] at h
    injection h with h
    subst h
    have hnodup : (breadth_first_traversal cfg.toGraphCfg).1.Nodup := by
      rw [← bfs_final_keys cfg.toGraphCfg hwf]
      exact (breadth_first_traversal_inv cfg.toGraphCfg hwf).nodup
    have hinit_range : (node_ids_of (breadth_first_traversal cfg.toGraphCfg).1).map Prod.snd
        = List.range (breadth_first_traversal cfg.toGraphCfg).1.length :=
      node_ids_of_snd _
    have hinit_ids : ∀ i (hh : i < (breadth_first_traversal cfg.toGraphCfg).1.length),
        alookup ((breadth_first_traversal cfg.toGraphCfg).1.get ⟨i, hh⟩)
          (node_ids_of (breadth_first_traversal cfg.toGraphCfg).1) = some i :=
      fun i hh => alookup_node_ids_of _ hnodup i hh
    obtain ⟨hrange, hids⟩ := process_trackables_ids cfg _ _ _ st hser hinit_range hinit_ids
    refine ⟨hids, hrange, ?_, ?_⟩
    · have hfill := fill_aux_ok cfg st.node_ids st.slot_variables st.trackable_objects 0
        (fun i hh => by simpa using hids i hh)
      simpa [fill_object_graph_proto, List.enum] using hfill
    · obtain ⟨extO, _, h1, _, _⟩ := process_trackables_extends cfg _ _ _ st hser
      exact ⟨extO, h1⟩

/-- C3 witness: the dense-id theorem applied to the concrete example
configuration with one slot variable. -/
theorem C3_node_ids_dense_witness :
    (WellFormedGraph trackCfgEx.toGraphCfg
      ∧ objects_ids_and_slot_variables_and_paths trackCfgEx = .ok oiasvapEx)
    ∧ ((∀ i (hi : i < oiasvapEx.trackable_objects.length),
        alookup (oiasvapEx.trackable_objects.get ⟨i, hi⟩) oiasvapEx.node_ids = some i)
      ∧ oiasvapEx.node_ids.map Prod.snd = List.range oiasvapEx.trackable_objects.length
      ∧ (∃ protos, fill_object_graph_proto trackCfgEx oiasvapEx.trackable_objects
          oiasvapEx.node_ids oiasvapEx.slot_variables = .ok protos)
      ∧ ∃ ext, oiasvapEx.trackable_objects
          = (breadth_first_traversal trackCfgEx.toGraphCfg).1 ++ ext) :=
  ⟨⟨by decide, by decide⟩,
    C3_node_ids_dense trackCfgEx (by decide) oiasvapEx (by decide)⟩

/-! ### Saveable-loop lemmas -/

/-- The `optional_restore` accumulator computed by the saveable loop is the
conjunction over the processed saveables (`none` when nothing was folded). -/
theorem process_saveables_opt_spec (fz : SaveableObject → SaveableObject) :
    ∀ (svs : List SaveableObject) (opt : Option Bool) (fn : List Char)
      (named : List SaveableObject) (feed : Option (List (List Char × Nat)))
      (r : SaveablesLoopResult),
    process_saveables fz svs opt fn named feed = .ok r →
    r.optional_restore = (match opt with
      | none => if svs.isEmpty then none else some (svs.all fun s => s.optional_restore)
      | some b => some (b && svs.all fun s => s.optional_restore)) := by
  intro svs
  induction svs with
  | nil =>
    intro opt fn named feed r h
    simp only [process_saveables] at h
    injection h with h
    subst h
    cases opt <;> simp
  | cons s rest ih =>
    intro opt fn named feed r h
    simp only [process_saveables] at h
    by_cases hp : s.is_python_state
    · rw [if_pos hp] at h
      cases feed with
      | none =>
        have := ih _ _ _ _ _ h
        rw [this]
        cases opt <;> simp [Bool.and_assoc]
      | some m =>
        simp only at h
        split at h
        · exact absurd h (by simp)
        · have := ih _ _ _ _ _ h
          rw [this]
          cases opt <;> simp [Bool.and_assoc]
    · rw [if_neg hp] at h
      have := ih _ _ _ _ _ h
      rw [this]
      cases opt <;> simp [Bool.and_assoc]

theorem process_factory_data_fresh_case
    (create : Nat → List Char → List SaveableObject)
    (fz : SaveableObject → SaveableObject) (fd : CheckpointFactoryData)
    (named : List SaveableObject) (feed : Option (List (List Char × Nat)))
    (r : FactoryDataResult) (cache2 : Option (List (List Char × List SaveableObject)))
    (h : (if ((create fd.factory fd.checkpoint_key).all
          fun s => substrIn fd.checkpoint_key s.name) = true then
        match process_saveables fz (create fd.factory fd.checkpoint_key)
            none [] named feed with
        | Except.error e => Except.error e
        | Except.ok pr =>
          Except.ok (⟨⟨fd.name, fd.checkpoint_key, pr.full_name,
              pr.optional_restore.getD false⟩,
            (match cache2 with
              | some ca => some (aset fd.name (create fd.factory fd.checkpoint_key) ca)
              | none => none),
            pr.named_saveable_objects, pr.feed_additions⟩ : FactoryDataResult)
      else Except.error PyErr.adapterKeyMismatch) = Except.ok r) :
    ∃ pr, process_saveables fz (create fd.factory fd.checkpoint_key)
        none [] named feed = .ok pr
      ∧ r.feed_additions = pr.feed_additions
      ∧ r.named_saveable_objects = pr.named_saveable_objects
      ∧ r.attr = ⟨fd.name, fd.checkpoint_key, pr.full_name,
          pr.optional_restore.getD false⟩ := by
  by_cases hall : ((create fd.factory fd.checkpoint_key).all
      fun s => substrIn fd.checkpoint_key s.name) = true
  · rw [if_pos hall] at h
    cases hps : process_saveables fz (create fd.factory fd.checkpoint_key)
        none [] named feed with
    | error e => rw [hps] at h; exact absurd h (by simp)
    | ok pr =>
      rw [hps] at h
      injection h with h
      subst h
      exact ⟨pr, rfl, rfl, rfl, rfl⟩
  · rw [if_neg hall] at h
    exact absurd h (by simp)

/-- Case analysis of `process_factory_data`: either it reused a fully matching
cache entry, or it ran the factory (with the stale entry deleted first when it
existed); either way the saveable loop ran on the materialized list. -/
theorem process_factory_data_cases
    (create : Nat → List Char → List SaveableObject)
    (fz : SaveableObject → SaveableObject)
    (cached : Option (List (List Char × List SaveableObject)))
    (fd : CheckpointFactoryData) (named : List SaveableObject)
    (feed : Option (List (List Char × Nat))) (r : FactoryDataResult)
    (h : process_factory_data create fz cached fd named feed = .ok r) :
    ∃ svs pr,
      process_saveables fz svs none [] named feed = .ok pr
      ∧ r.feed_additions = pr.feed_additions
      ∧ r.named_saveable_objects = pr.named_saveable_objects
      ∧ r.attr = ⟨fd.name, fd.checkpoint_key, pr.full_name,
          pr.optional_restore.getD false⟩
      ∧ ((∃ ca, cached = some ca ∧ alookup fd.name ca = some svs
            ∧ (svs.all fun s => substrIn fd.checkpoint_key s.name) = true
            ∧ r.cached_attributes = cached)
        ∨ (svs = create fd.factory fd.checkpoint_key
            ∧ (svs.all fun s => substrIn fd.checkpoint_key s.name) = true
            ∧ ((∃ ca svs0, cached = some ca ∧ alookup fd.name ca = some svs0
                  ∧ (svs0.all fun s => substrIn fd.checkpoint_key s.name) = false
                  ∧ r.cached_attributes = some (aset fd.name svs (adel fd.name ca)))
              ∨ ((match cached with
                    | some ca => alookup fd.name ca
                    | none => none) = none
                  ∧ r.cached_attributes
                    = (match cached with
                      | some ca => some (aset fd.name svs ca)
                      | none => none))))) := by
  simp only [process_factory_data] at h
  cases cached with
  | none =>
    simp only at h
    obtain ⟨pr, hps, h1, h2, h3⟩ := process_factory_data_fresh_case create fz fd
      named feed r none h
    refine ⟨create fd.factory fd.checkpoint_key, pr, hps, h1, h2, h3, Or.inr ⟨rfl, ?_, ?_⟩⟩
    · by_cases hall : ((create fd.factory fd.checkpoint_key).all
          fun s => substrIn fd.checkpoint_key s.name) = true
      · exact hall
      · rw [if_neg hall] at h
        exact absurd h (by simp)
    · refine Or.inr ⟨rfl, ?_⟩
      by_cases hall : ((create fd.factory fd.checkpoint_key).all
          fun s => substrIn fd.checkpoint_key s.name) = true
      · rw [if_pos hall] at h
        cases hps2 : process_saveables fz (create fd.factory fd.checkpoint_key)
            none [] named feed with
        | error e => rw [hps2] at h; exact absurd h (by simp)
        | ok pr2 =>
          rw [hps2] at h
          injection h with h
          subst h
          rfl
      · rw [if_neg hall] at h
        exact absurd h (by simp)
  | some ca =>
    simp only at h
    cases hl : alookup fd.name ca with
    | none =>
      rw [hl] at h
      simp only at h
      obtain ⟨pr, hps, h1, h2, h3⟩ := process_factory_data_fresh_case create fz fd
        named feed r (some ca) h
      refine ⟨create fd.factory fd.checkpoint_key, pr, hps, h1, h2, h3,
        Or.inr ⟨rfl, ?_, Or.inr ⟨by simp [hl], ?_⟩⟩⟩
      · by_cases hall : ((create fd.factory fd.checkpoint_key).all
            fun s => substrIn fd.checkpoint_key s.name) = true
        · exact hall
        · rw [if_neg hall] at h
          exact absurd h (by simp)
      · rw [if_pos (by
            by_cases hall : ((create fd.factory fd.checkpoint_key).all
                fun s => substrIn fd.checkpoint_key s.name) = true
            · exact hall
            · rw [if_neg hall] at h; exact absurd h (by simp))] at h
        cases hps2 : process_saveables fz (create fd.factory fd.checkpoint_key)
            none [] named feed with
        | error e => rw [hps2] at h; exact absurd h (by simp)
        | ok pr2 =>
          rw [hps2] at h
          injection h with h
          subst h
          rfl
    | some svs0 =>
      rw [hl] at h
      simp only at h
      by_cases hall : (svs0.all fun s => substrIn fd.checkpoint_key s.name) = true
      · rw [if_pos hall] at h
        simp only at h
        cases hps : process_saveables fz svs0 none [] named feed with
        | error e => rw [hps] at h; exact absurd h (by simp)
        | ok pr =>
          rw [hps] at h
          injection h with h
          subst h
          exact ⟨svs0, pr, hps, rfl, rfl, rfl, Or.inl ⟨ca, rfl, hl, hall, rfl⟩⟩
      · rw [if_neg hall] at h
        simp only at h
        obtain ⟨pr, hps, h1, h2, h3⟩ := process_factory_data_fresh_case create fz fd
          named feed r (some (adel fd.name ca)) h
        refine ⟨create fd.factory fd.checkpoint_key, pr, hps, h1, h2, h3,
          Or.inr ⟨rfl, ?_, Or.inl ⟨ca, svs0, rfl, hl, by simpa using hall, ?_⟩⟩⟩
        · by_cases hall2 : ((create fd.factory fd.checkpoint_key).all
              fun s => substrIn fd.checkpoint_key s.name) = true
          · exact hall2
          · rw [if_neg hall2] at h
            exact absurd h (by simp)
        · rw [if_pos (by
              by_cases hall2 : ((create fd.factory fd.checkpoint_key).all
                  fun s => substrIn fd.checkpoint_key s.name) = true
              · exact hall2
              · rw [if_neg hall2] at h; exact absurd h (by simp))] at h
          cases hps2 : process_saveables fz (create fd.factory fd.checkpoint_key)
              none [] named feed with
          | error e => rw [hps2] at h; exact absurd h (by simp)
          | ok pr2 =>
            rw [hps2] at h
            injection h with h
            subst h
            rfl

/-- C9: the `optional_restore` flag written to an attribute record is the
logical AND of the flags of all saveables materialized for the attribute
(reused from the cache entry or freshly created), and is `false` when no
saveable was materialized. -/
theorem C9_optional_restore_and
    (create : Nat → List Char → List SaveableObject)
    (fz : SaveableObject → SaveableObject)
    (cached : Option (List (List Char × List SaveableObject)))
    (fd : CheckpointFactoryData) (named : List SaveableObject)
    (feed : Option (List (List Char × Nat))) (r : FactoryDataResult)
    (h : process_factory_data create fz cached fd named feed = .ok r) :
    ∃ svs : List SaveableObject,
      ((∃ ca, cached = some ca ∧ alookup fd.name ca = some svs
          ∧ (svs.all fun s => substrIn fd.checkpoint_key s.name) = true)
        ∨ svs = create fd.factory fd.checkpoint_key)
      ∧ r.attr.optional_restore
        = (!svs.isEmpty && svs.all fun s => s.optional_restore) := by
  obtain ⟨svs, pr, hps, _, _, hattr, hcase⟩ :=
    process_factory_data_cases create fz cached fd named feed r h
  refine ⟨svs, ?_, ?_⟩
  · rcases hcase with ⟨ca, h1, h2, h3, _⟩ | ⟨heq, _, _⟩
    · exact Or.inl ⟨ca, h1, h2, h3⟩
    · exact Or.inr heq
  · rw [hattr]
    have hopt := process_saveables_opt_spec fz svs none [] named feed pr hps
    show pr.optional_restore.getD false = _
    rw [hopt]
    by_cases hsv : svs.isEmpty
    · simp [hsv]
    · simp [hsv]

/-- C9 witness: two saveables with flags true and false yield a false
attribute flag. -/
theorem C9_optional_restore_and_witness :
    process_factory_data (fun _ _ => [svA, svB]) id none fdEx [] none = .ok resFdEx
    ∧ ∃ svs : List SaveableObject,
      ((∃ ca, (none : Option (List (List Char × List SaveableObject))) = some ca
          ∧ alookup fdEx.name ca = some svs
          ∧ (svs.all fun s => substrIn fdEx.checkpoint_key s.name) = true)
        ∨ svs = [svA, svB])
      ∧ resFdEx.attr.optional_restore
        = (!svs.isEmpty && svs.all fun s => s.optional_restore) :=
  ⟨by decide,
    C9_optional_restore_and (fun _ _ => [svA, svB]) id none fdEx [] none resFdEx
      (by decide)⟩

/-- C7: when the cache holds saveables for `(node, attribute_name)` all of
whose names contain the current checkpoint key, they are reused: the factory
is never consulted (the result does not depend on it) and the cache entry is
kept; when some cached saveable's name lacks the key, the stale entry is
deleted, fresh saveables are built from the factory and stored back; with
caching disabled nothing is stored. -/
theorem C7_saveables_cache :
    (∀ (create1 create2 : Nat → List Char → List SaveableObject)
        (fz : SaveableObject → SaveableObject)
        (ca : List (List Char × List SaveableObject)) (svs : List SaveableObject)
        (fd : CheckpointFactoryData) (named : List SaveableObject)
        (feed : Option (List (List Char × Nat))),
      alookup fd.name ca = some svs →
      (svs.all fun s => substrIn fd.checkpoint_key s.name) = true →
      (process_factory_data create1 fz (some ca) fd named feed
        = process_factory_data create2 fz (some ca) fd named feed)
      ∧ ∀ r, process_factory_data create1 fz (some ca) fd named feed = .ok r →
          r.cached_attributes = some ca
          ∧ ∃ pr, process_saveables fz svs none [] named feed = .ok pr
              ∧ r.named_saveable_objects = pr.named_saveable_objects)
    ∧ (∀ (create : Nat → List Char → List SaveableObject)
        (fz : SaveableObject → SaveableObject)
        (ca : List (List Char × List SaveableObject)) (svs0 : List SaveableObject)
        (fd : CheckpointFactoryData) (named : List SaveableObject)
        (feed : Option (List (List Char × Nat))) (r : FactoryDataResult),
      alookup fd.name ca = some svs0 →
      (svs0.all fun s => substrIn fd.checkpoint_key s.name) = false →
      process_factory_data create fz (some ca) fd named feed = .ok r →
      ∃ pr, process_saveables fz (create fd.factory fd.checkpoint_key)
          none [] named feed = .ok pr
        ∧ r.named_saveable_objects = pr.named_saveable_objects
        ∧ r.cached_attributes
          = some (aset fd.name (create fd.factory fd.checkpoint_key)
              (adel fd.name ca)))
    ∧ (∀ (create : Nat → List Char → List SaveableObject)
        (fz : SaveableObject → SaveableObject) (fd : CheckpointFactoryData)
        (named : List SaveableObject) (feed : Option (List (List Char × Nat)))
        (r : FactoryDataResult),
      process_factory_data create fz none fd named feed = .ok r →
      r.cached_attributes = none) := by
  refine ⟨?_, ?_, ?_⟩
  · intro create1 create2 fz ca svs fd named feed hhit hall
    constructor
    · simp only [process_factory_data, hhit, hall, if_true]
    · intro r h
      obtain ⟨svs2, pr, hps, _, hnamed, _, hcase⟩ :=
        process_factory_data_cases create1 fz (some ca) fd named feed r h
      rcases hcase with ⟨ca2, hca2, hl2, _, hkeep⟩ | ⟨_, _, hstale⟩
      · injection hca2 with hca2
        subst hca2
        rw [hhit] at hl2
        injection hl2 with hl2
        subst hl2
        exact ⟨hkeep, pr, hps, hnamed⟩
      · rcases hstale with ⟨ca2, svs0, hca2, hl2, hall0, _⟩ | ⟨hnone, _⟩
        · injection hca2 with hca2
          subst hca2
          rw [hhit] at hl2
          injection hl2 with hl2
          subst hl2
          rw [hall] at hall0
          exact absurd hall0 (by simp)
        · simp only [hhit] at hnone
          exact absurd hnone (by simp)
  · intro create fz ca svs0 fd named feed r hl0 hall0 h
    obtain ⟨svs2, pr, hps, _, hnamed, _, hcase⟩ :=
      process_factory_data_cases create fz (some ca) fd named feed r h
    rcases hcase with ⟨ca2, hca2, hl2, hall2, _⟩ | ⟨heq, _, hstale⟩
    · injection hca2 with hca2
      subst hca2
      rw [hl0] at hl2
      injection hl2 with hl2
      subst hl2
      rw [hall0] at hall2
      exact absurd hall2 (by simp)
    · subst heq
      rcases hstale with ⟨ca2, svs1, hca2, hl2, _, hcache⟩ | ⟨hnone, _⟩
      · injection hca2 with hca2
        subst hca2
        exact ⟨pr, hps, hnamed, hcache⟩
      · simp only [hl0] at hnone
        exact absurd hnone (by simp)
  · intro create fz fd named feed r h
    obtain ⟨svs2, pr, hps, _, hnamed, _, hcase⟩ :=
      process_factory_data_cases create fz none fd named feed r h
    rcases hcase with ⟨ca2, hca2, _⟩ | ⟨_, _, hstale⟩
    · exact absurd hca2 (by simp)
    · rcases hstale with ⟨ca2, svs0, hca2, _⟩ | ⟨_, hcache⟩
      · exact absurd hca2 (by simp)
      · exact hcache

/-- C7 witness: a concrete cache hit where the factory is irrelevant, and a
concrete stale entry that is deleted and rebuilt. -/
theorem C7_saveables_cache_witness :
    (alookup fdEx.name cacheHitEx = some [svA]
      ∧ ([svA].all fun s => substrIn fdEx.checkpoint_key s.name) = true)
    ∧ (process_factory_data (fun _ _ => []) id (some cacheHitEx) fdEx [] none
        = process_factory_data (fun _ _ => [svB]) id (some cacheHitEx) fdEx [] none)
    ∧ (alookup fdEx.name cacheStaleEx = some [svZ]
      ∧ ([svZ].all fun s => substrIn fdEx.checkpoint_key s.name) = false
      ∧ process_factory_data (fun _ _ => [svA]) id (some cacheStaleEx) fdEx [] none
          = .ok resStaleEx)
    ∧ (∃ pr, process_saveables id [svA] none [] [] none = .ok pr
        ∧ resStaleEx.named_saveable_objects = pr.named_saveable_objects
        ∧ resStaleEx.cached_attributes
          = some (aset fdEx.name [svA] (adel fdEx.name cacheStaleEx))) :=
  ⟨⟨by decide, by decide⟩,
    (C7_saveables_cache.1 (fun _ _ => []) (fun _ _ => [svB]) id cacheHitEx [svA] fdEx
      [] none (by decide) (by decide)).1,
    ⟨by decide, by decide, by decide⟩,
    C7_saveables_cache.2.1 (fun _ _ => [svA]) id cacheStaleEx [svZ] fdEx [] none
      resStaleEx (by decide) (by decide) (by decide)⟩

end GraphView
